import Mathlib

/-!
Verification of the board/game-state core and the AI move-selection engine
of an N-by-N generalized tic-tac-toe (gomoku) program.

The JavaScript source (src/Board.js, src/AI.js) is embedded shallowly:
  * markers `'O'`/`'X'` become the inductive `Mark`; an empty cell `' '`
    becomes `none : Option Mark`;
  * the mutable `Board` object becomes a structure, and every mutating
    method becomes a function returning the updated board (explicit state
    passing); methods that also return a value return a pair;
  * JavaScript numbers used as scores, including `-Infinity`/`Infinity`
    sentinels, become `WithBot (WithTop Int)`;
  * `Math.random()`-driven index choice is modelled by an injected natural
    number `rng`, reduced modulo the length of the candidate list;
  * the unbounded recursion of `minimax` is driven by an explicit fuel;
    the fuel passed at every entry point is `maxDepth + 1`, and since each
    recursive step increases `depth` by 1 and recursion only happens while
    `depth < maxDepth`, the fuel-0 fallback case is never reached from an
    entry point.
-/

/-- Player marker: `'O'` or `'X'` in the source. -/
inductive Mark : Type
  | O : Mark
  | X : Mark
deriving DecidableEq, Repr

/-- A grid cell: `' '` (empty) or a player marker. -/
abbrev Cell := Option Mark

/-- A recorded move `\x7brow, col, player\x7d`.  `placeMarker` receives arbitrary
numbers for `row`/`col`, so they are integers here. -/
structure Move : Type where
  row : Int
  col : Int
  player : Mark
deriving DecidableEq, Repr

/-- The game state: `size`, `winLength`, the grid (`this.board`), the move
history and the current player. -/
structure Board : Type where
  size : Nat
  winLength : Nat
  board : List (List Cell)
  moveHistory : List Move
  currentPlayer : Mark
deriving DecidableEq, Repr

/-- Read `this.board[r][c]`; out-of-range reads default to empty. -/
def cellAt (b : Board) (r c : Nat) : Cell :=
  (b.board.getD r []).getD c none

/-- Write cell `(r, c)` of a grid; out-of-range writes are dropped. -/
def setCell (g : List (List Cell)) (r c : Nat) (v : Cell) : List (List Cell) :=
  g.set r ((g.getD r []).set c v)

/-- `new Board(size, winLength)` followed by `resetBoard()`: an all-empty
`size`-by-`size` grid, empty history, `'O'` to move. -/
def Board.new (size winLength : Nat) : Board :=
  { size := size
    winLength := winLength
    board := List.replicate size (List.replicate size none)
    moveHistory := []
    currentPlayer := Mark.O }

/-- `placeMarker(row, col, player)`: `false` (and no change) when the
coordinates are out of `[0, size)` or the cell is occupied; otherwise set
the cell, append the move to the history and return `true`. -/
def placeMarker (b : Board) (row col : Int) (player : Mark) : Bool × Board :=
  if row < 0 ∨ (b.size : Int) ≤ row ∨ col < 0 ∨ (b.size : Int) ≤ col then
    (false, b)
  else if cellAt b row.toNat col.toNat ≠ none then
    (false, b)
  else
    (true,
     { b with
        board := setCell b.board row.toNat col.toNat (some player)
        moveHistory := b.moveHistory ++ [⟨row, col, player⟩] })

/-- `undoMove()`: pop the last move (if any) and reset its cell to empty. -/
def undoMove (b : Board) : Option Move × Board :=
  match b.moveHistory.getLast? with
  | none => (none, b)
  | some lastMove =>
      (some lastMove,
       { b with
          board := setCell b.board lastMove.row.toNat lastMove.col.toNat none
          moveHistory := b.moveHistory.dropLast })

/-- `switchPlayer()`: toggle the current player. -/
def switchPlayer (b : Board) : Board :=
  { b with currentPlayer := if b.currentPlayer = Mark.O then Mark.X else Mark.O }

/-- `checkWin(player)`, horizontal scan: rows `0..size-1`, window starts
`0..size-winLength`. -/
def checkWinHoriz (b : Board) (p : Mark) : Bool :=
  (List.range b.size).any fun row =>
    (List.range (b.size + 1 - b.winLength)).any fun col =>
      (List.range b.winLength).all fun k =>
        decide (cellAt b row (col + k) = some p)

/-- `checkWin(player)`, vertical scan. -/
def checkWinVert (b : Board) (p : Mark) : Bool :=
  (List.range b.size).any fun col =>
    (List.range (b.size + 1 - b.winLength)).any fun row =>
      (List.range b.winLength).all fun k =>
        decide (cellAt b (row + k) col = some p)

/-- `checkWin(player)`, down-right diagonal scan. -/
def checkWinDiag (b : Board) (p : Mark) : Bool :=
  (List.range (b.size + 1 - b.winLength)).any fun row =>
    (List.range (b.size + 1 - b.winLength)).any fun col =>
      (List.range b.winLength).all fun k =>
        decide (cellAt b (row + k) (col + k) = some p)

/-- `checkWin(player)`, anti-diagonal scan.  The source iterates `col` from
`size-1` down to `winLength-1`; here the same start columns are enumerated
ascending as `winLength - 1 + j`, which does not affect the existential. -/
def checkWinAnti (b : Board) (p : Mark) : Bool :=
  (List.range (b.size + 1 - b.winLength)).any fun row =>
    (List.range (b.size + 1 - b.winLength)).any fun j =>
      (List.range b.winLength).all fun k =>
        decide (cellAt b (row + k) (b.winLength - 1 + j - k) = some p)

/-- `checkWin(player)`: a win in any one of the four directions suffices. -/
def checkWin (b : Board) (p : Mark) : Bool :=
  checkWinHoriz b p || checkWinVert b p || checkWinDiag b p || checkWinAnti b p

/-- `checkDraw()`: true iff no cell of the grid is empty. -/
def checkDraw (b : Board) : Bool :=
  (List.range b.size).all fun row =>
    (List.range b.size).all fun col =>
      decide (cellAt b row col ≠ none)

/-- A cell position `\x7brow, col\x7d` as produced by `getEmptyCells`. -/
structure Pos : Type where
  row : Nat
  col : Nat
deriving DecidableEq, Repr

/-- Serialized game state, the record returned by `serialize()`. -/
structure SerializedState : Type where
  size : Nat
  winLength : Nat
  board : List (List Cell)
  moveHistory : List Move
  currentPlayer : Mark
deriving DecidableEq, Repr

/-- `serialize()`. -/
def serialize (b : Board) : SerializedState :=
  { size := b.size
    winLength := b.winLength
    board := b.board
    moveHistory := b.moveHistory
    currentPlayer := b.currentPlayer }

/-- `deserialize(data)`: overwrite every field of the receiver from the
serialized record. -/
def deserialize (_b : Board) (data : SerializedState) : Board :=
  { size := data.size
    winLength := data.winLength
    board := data.board
    moveHistory := data.moveHistory
    currentPlayer := data.currentPlayer }

/-- `getEmptyCells()`: all empty cells in row-major order. -/
def getEmptyCells (b : Board) : List Pos :=
  (List.range b.size).flatMap fun row =>
    (List.range b.size).filterMap fun col =>
      if cellAt b row col = none then some ⟨row, col⟩ else none

/-- `clone()`: a fresh board with copied grid rows and copied history.  In
this value model copying is the identity on each row and move. -/
def clone (b : Board) : Board :=
  { size := b.size
    winLength := b.winLength
    board := b.board.map fun row => row.map fun c => c
    moveHistory := b.moveHistory.map fun m => m
    currentPlayer := b.currentPlayer }

/-! ## The AI engine (src/AI.js) -/

/-- Difficulty tiers `'easy' | 'medium' | 'hard' | 'master'`. -/
inductive Difficulty : Type
  | easy : Difficulty
  | medium : Difficulty
  | hard : Difficulty
  | master : Difficulty
deriving DecidableEq, Repr

/-- `getMaxDepthForDifficulty()`. -/
def getMaxDepthForDifficulty : Difficulty → Nat
  | Difficulty.easy => 1
  | Difficulty.medium => 2
  | Difficulty.hard => 3
  | Difficulty.master => 4

/-- The AI player's configuration fields. -/
structure AI : Type where
  marker : Mark
  opponentMarker : Mark
  difficulty : Difficulty
  maxDepth : Nat
deriving DecidableEq, Repr

/-- The `AI` constructor: the opponent marker is forced to be the other
marker, and `maxDepth` is derived from the difficulty. -/
def AI.new (marker : Mark) (difficulty : Difficulty) : AI :=
  { marker := marker
    opponentMarker := if marker = Mark.O then Mark.X else Mark.O
    difficulty := difficulty
    maxDepth := getMaxDepthForDifficulty difficulty }

/-- JavaScript numbers as used by the search: integers extended with the
`-Infinity` (`⊥`) and `Infinity` (`⊤`) sentinels. -/
abbrev EInt := WithBot (WithTop Int)

/-- Embed a finite score into `EInt`. -/
def toEInt (x : Int) : EInt := ((x : WithTop Int) : EInt)

/-- The `evaluateLine` closure of `evaluateLines`: count own, opponent and
empty cells in one window, then score `10^own` for a pure own-marker
window, `-10^opp` for a pure opponent window, `0` for mixed or empty. -/
def evaluateLine (ai : AI) (line : List Cell) : Int :=
  let myMarkerCount := line.countP fun c => decide (c = some ai.marker)
  let opponentMarkerCount := line.countP fun c => decide (c = some ai.opponentMarker)
  if opponentMarkerCount = 0 ∧ 0 < myMarkerCount then
    (10 : Int) ^ myMarkerCount
  else if myMarkerCount = 0 ∧ 0 < opponentMarkerCount then
    -((10 : Int) ^ opponentMarkerCount)
  else
    0

/-- The windows scanned by `evaluateLines(board, 'row')`. -/
def rowWindows (b : Board) : List (List Cell) :=
  (List.range b.size).flatMap fun row =>
    (List.range (b.size + 1 - b.winLength)).map fun col =>
      (List.range b.winLength).map fun k => cellAt b row (col + k)

/-- The windows scanned by `evaluateLines(board, 'col')`. -/
def colWindows (b : Board) : List (List Cell) :=
  (List.range b.size).flatMap fun col =>
    (List.range (b.size + 1 - b.winLength)).map fun row =>
      (List.range b.winLength).map fun k => cellAt b (row + k) col

/-- The windows scanned by `evaluateLines(board, 'diag')`. -/
def diagWindows (b : Board) : List (List Cell) :=
  (List.range (b.size + 1 - b.winLength)).flatMap fun row =>
    (List.range (b.size + 1 - b.winLength)).map fun col =>
      (List.range b.winLength).map fun k => cellAt b (row + k) (col + k)

/-- The windows scanned by `evaluateLines(board, 'anti-diag')`; the source
iterates the start column descending, which does not affect the sum. -/
def antiDiagWindows (b : Board) : List (List Cell) :=
  (List.range (b.size + 1 - b.winLength)).flatMap fun row =>
    (List.range (b.size + 1 - b.winLength)).map fun j =>
      (List.range b.winLength).map fun k => cellAt b (row + k) (b.winLength - 1 + j - k)

/-- `evaluateLines(board, direction)`: sum the window scores. -/
def evaluateLines (ai : AI) (windows : List (List Cell)) : Int :=
  (windows.map fun w => evaluateLine ai w).sum

/-- `evaluateBoard(board)`: the four directional sums. -/
def evaluateBoard (ai : AI) (b : Board) : Int :=
  evaluateLines ai (rowWindows b) + evaluateLines ai (colWindows b) +
    evaluateLines ai (diagWindows b) + evaluateLines ai (antiDiagWindows b)

/-- The maximizing loop of `minimax`: place the marker, evaluate the child,
undo, fold the running maximum and `alpha`, and break once `beta <= alpha`.
The board being mutated is threaded explicitly; `child` is the recursive
call at `depth + 1`. -/
def maxLoop (p : Mark) (child : Board → EInt → EInt → EInt × Board) :
    List Pos → Board → EInt → EInt → EInt → EInt × Board
  | [], bc, maxScore, _, _ => (maxScore, bc)
  | c :: rest, bc, maxScore, alpha, beta =>
      let pr := child (placeMarker bc c.row c.col p).2 alpha beta
      let bc2 := (undoMove pr.2).2
      let maxScore2 := max maxScore pr.1
      let alpha2 := max alpha pr.1
      if beta ≤ alpha2 then (maxScore2, bc2)
      else maxLoop p child rest bc2 maxScore2 alpha2 beta

/-- The minimizing loop of `minimax`, dual to `maxLoop`. -/
def minLoop (p : Mark) (child : Board → EInt → EInt → EInt × Board) :
    List Pos → Board → EInt → EInt → EInt → EInt × Board
  | [], bc, minScore, _, _ => (minScore, bc)
  | c :: rest, bc, minScore, alpha, beta =>
      let pr := child (placeMarker bc c.row c.col p).2 alpha beta
      let bc2 := (undoMove pr.2).2
      let minScore2 := min minScore pr.1
      let beta2 := min beta pr.1
      if beta2 ≤ alpha then (minScore2, bc2)
      else minLoop p child rest bc2 minScore2 alpha beta2

/-- `minimax(board, depth, isMaximizing, alpha, beta)` with alpha-beta
pruning, driven by an explicit fuel.  The fuel-0 fallback returns the same
terminal cascade; entry points pass `maxDepth + 1`, which keeps the fuel
positive at every reachable node because recursion requires
`depth < maxDepth` and each step increases `depth` by one. -/
def minimax (ai : AI) : Nat → Board → Nat → Bool → EInt → EInt → EInt × Board
  | 0, b, depth, _, _, _ =>
      (if checkWin b ai.marker then toEInt (100 - (depth : Int))
       else if checkWin b ai.opponentMarker then toEInt (-100 + (depth : Int))
       else toEInt (evaluateBoard ai b), b)
  | fuel + 1, b, depth, isMaximizing, alpha, beta =>
      if checkWin b ai.marker then (toEInt (100 - (depth : Int)), b)
      else if checkWin b ai.opponentMarker then (toEInt (-100 + (depth : Int)), b)
      else if checkDraw b || decide (ai.maxDepth ≤ depth) then
        (toEInt (evaluateBoard ai b), b)
      else if isMaximizing then
        maxLoop ai.marker (fun b2 a2 b3 => minimax ai fuel b2 (depth + 1) false a2 b3)
          (getEmptyCells b) b ⊥ alpha beta
      else
        minLoop ai.opponentMarker (fun b2 a2 b3 => minimax ai fuel b2 (depth + 1) true a2 b3)
          (getEmptyCells b) b ⊤ alpha beta

/-- `makeRandomMove(board)`: a random empty cell, `none` on a full board.
The second component is the caller's board, which the call leaves as is. -/
def makeRandomMove (b : Board) (rng : Nat) : Option Pos × Board :=
  let emptyCells := getEmptyCells b
  (if emptyCells.isEmpty then none else emptyCells[rng % emptyCells.length]?, b)

/-- One rule of `makeMediumMove`: walk the empty cells, trying `p` on each;
return the first whose placement makes `p` win, undoing each failed trial
(the source returns without undoing the successful trial). -/
def tryWinCells (p : Mark) : List Pos → Board → Option Pos × Board
  | [], bc => (none, bc)
  | c :: rest, bc =>
      let bc1 := (placeMarker bc c.row c.col p).2
      if checkWin bc1 p then (some c, bc1)
      else tryWinCells p rest (undoMove bc1).2

/-- The corner list of `makeMediumMove`, in source order. -/
def corners (b : Board) : List Pos :=
  [⟨0, 0⟩, ⟨0, b.size - 1⟩, ⟨b.size - 1, 0⟩, ⟨b.size - 1, b.size - 1⟩]

/-- `makeMediumMove(board)`: win if possible, else block the opponent's
win, else take the center, else the first empty corner, else random.  The
trial placements run on a clone; the caller's board is only read. -/
def makeMediumMove (ai : AI) (b : Board) (rng : Nat) : Option Pos × Board :=
  let boardCopy := clone b
  let emptyCells := getEmptyCells boardCopy
  match tryWinCells ai.marker emptyCells boardCopy with
  | (some c, _) => (some c, b)
  | (none, bc1) =>
    match tryWinCells ai.opponentMarker emptyCells bc1 with
    | (some c, _) => (some c, b)
    | (none, _) =>
      let center := b.size / 2
      if cellAt b center center = none then (some ⟨center, center⟩, b)
      else
        match (corners b).find? fun c => decide (cellAt b c.row c.col = none) with
        | some corner => (some corner, b)
        | none => makeRandomMove b rng

/-- The root loop of `makeMinimaxMove`: try each empty cell on the clone,
score it by `minimax` at depth 0 with the opponent to move, undo, and keep
the first strictly greater score. -/
def bestLoop (p : Mark) (child : Board → EInt × Board) :
    List Pos → Board → EInt → Option Pos → Option Pos × Board
  | [], bc, _, bestMove => (bestMove, bc)
  | c :: rest, bc, bestScore, bestMove =>
      let pr := child (placeMarker bc c.row c.col p).2
      let bc2 := (undoMove pr.2).2
      if bestScore < pr.1 then bestLoop p child rest bc2 pr.1 (some c)
      else bestLoop p child rest bc2 bestScore bestMove

/-- `makeMinimaxMove(board)`: handle the trivial 0/1-empty-cell cases,
fall back to `makeMediumMove` when more than `size^2 - 3` cells are empty,
otherwise run the root alpha-beta scan on a clone. -/
def makeMinimaxMove (ai : AI) (b : Board) (rng : Nat) : Option Pos × Board :=
  let boardCopy := clone b
  let emptyCells := getEmptyCells boardCopy
  if emptyCells.length = 0 then (none, b)
  else if emptyCells.length = 1 then (emptyCells[0]?, b)
  else if b.size * b.size - 3 < emptyCells.length then makeMediumMove ai b rng
  else
    ((bestLoop ai.marker (fun b2 => minimax ai (ai.maxDepth + 1) b2 0 false ⊥ ⊤)
        emptyCells boardCopy ⊥ none).1, b)

/-- `makeMove(board)`: dispatch on the difficulty tier. -/
def makeMove (ai : AI) (b : Board) (rng : Nat) : Option Pos × Board :=
  match ai.difficulty with
  | Difficulty.easy => makeRandomMove b rng
  | Difficulty.medium => makeMediumMove ai b rng
  | _ => makeMinimaxMove ai b rng

/-! ## The unpruned twin of the adversarial search (for the refinement
claim): the identical procedure with the `beta <= alpha` cutoffs removed,
which makes the `alpha`/`beta` arguments inert, so they are dropped. -/

/-- The maximizing loop with the pruning break removed. -/
def maxLoopNP (p : Mark) (child : Board → EInt × Board) :
    List Pos → Board → EInt → EInt × Board
  | [], bc, maxScore => (maxScore, bc)
  | c :: rest, bc, maxScore =>
      let pr := child (placeMarker bc c.row c.col p).2
      maxLoopNP p child rest (undoMove pr.2).2 (max maxScore pr.1)

/-- The minimizing loop with the pruning break removed. -/
def minLoopNP (p : Mark) (child : Board → EInt × Board) :
    List Pos → Board → EInt → EInt × Board
  | [], bc, minScore => (minScore, bc)
  | c :: rest, bc, minScore =>
      let pr := child (placeMarker bc c.row c.col p).2
      minLoopNP p child rest (undoMove pr.2).2 (min minScore pr.1)

/-- `minimax` with pruning removed: plain bounded minimax. -/
def minimaxNP (ai : AI) : Nat → Board → Nat → Bool → EInt × Board
  | 0, b, depth, _ =>
      (if checkWin b ai.marker then toEInt (100 - (depth : Int))
       else if checkWin b ai.opponentMarker then toEInt (-100 + (depth : Int))
       else toEInt (evaluateBoard ai b), b)
  | fuel + 1, b, depth, isMaximizing =>
      if checkWin b ai.marker then (toEInt (100 - (depth : Int)), b)
      else if checkWin b ai.opponentMarker then (toEInt (-100 + (depth : Int)), b)
      else if checkDraw b || decide (ai.maxDepth ≤ depth) then
        (toEInt (evaluateBoard ai b), b)
      else if isMaximizing then
        maxLoopNP ai.marker (fun b2 => minimaxNP ai fuel b2 (depth + 1) false)
          (getEmptyCells b) b ⊥
      else
        minLoopNP ai.opponentMarker (fun b2 => minimaxNP ai fuel b2 (depth + 1) true)
          (getEmptyCells b) b ⊤

/-- The root scan with unpruned scoring (same strict-improvement
tie-break). -/
def bestLoopNP (p : Mark) (child : Board → EInt × Board) :
    List Pos → Board → EInt → Option Pos → Option Pos × Board
  | [], bc, _, bestMove => (bestMove, bc)
  | c :: rest, bc, bestScore, bestMove =>
      let pr := child (placeMarker bc c.row c.col p).2
      let bc2 := (undoMove pr.2).2
      if bestScore < pr.1 then bestLoopNP p child rest bc2 pr.1 (some c)
      else bestLoopNP p child rest bc2 bestScore bestMove

/-- `makeMinimaxMove` with the unpruned search. -/
def makeMinimaxMoveNP (ai : AI) (b : Board) (rng : Nat) : Option Pos × Board :=
  let boardCopy := clone b
  let emptyCells := getEmptyCells boardCopy
  if emptyCells.length = 0 then (none, b)
  else if emptyCells.length = 1 then (emptyCells[0]?, b)
  else if b.size * b.size - 3 < emptyCells.length then makeMediumMove ai b rng
  else
    ((bestLoopNP ai.marker (fun b2 => minimaxNP ai (ai.maxDepth + 1) b2 0 false)
        emptyCells boardCopy ⊥ none).1, b)

/-! ## Specification-side predicates and state-machine infrastructure -/

/-- Specification predicate for `checkWin`: some contiguous run of
`winLength` cells of `p`'s marker exists in one of the four directions,
its window lying inside the `size`-by-`size` grid. -/
def hasRun (b : Board) (p : Mark) : Prop :=
  (∃ r c, r < b.size ∧ c + b.winLength ≤ b.size ∧
      ∀ k < b.winLength, cellAt b r (c + k) = some p) ∨
  (∃ r c, r + b.winLength ≤ b.size ∧ c < b.size ∧
      ∀ k < b.winLength, cellAt b (r + k) c = some p) ∨
  (∃ r c, r + b.winLength ≤ b.size ∧ c + b.winLength ≤ b.size ∧
      ∀ k < b.winLength, cellAt b (r + k) (c + k) = some p) ∨
  (∃ r c, r + b.winLength ≤ b.size ∧ b.winLength ≤ c + 1 ∧ c < b.size ∧
      ∀ k < b.winLength, cellAt b (r + k) (c - k) = some p)

/-- The heuristic rule cascade as the specification words it: first
winning cell in row-major order, else first blocking cell, else the
center if empty, else the first empty corner, else a random empty cell.
All trials are phrased directly on the given board. -/
def heuristicCascadeSpec (ai : AI) (b : Board) (rng : Nat) : Option Pos :=
  let empties := getEmptyCells b
  match empties.find? fun c =>
      checkWin (placeMarker b c.row c.col ai.marker).2 ai.marker with
  | some c => some c
  | none =>
    match empties.find? fun c =>
        checkWin (placeMarker b c.row c.col ai.opponentMarker).2 ai.opponentMarker with
    | some c => some c
    | none =>
      if cellAt b (b.size / 2) (b.size / 2) = none then some ⟨b.size / 2, b.size / 2⟩
      else
        match (corners b).find? fun c => decide (cellAt b c.row c.col = none) with
        | some corner => some corner
        | none => (makeRandomMove b rng).1

/-- An operation of the board's mutating interface. -/
inductive Op : Type
  | place : Int → Int → Mark → Op
  | undo : Op
  | switch : Op
deriving DecidableEq, Repr

/-- Apply one operation (ignoring the returned value). -/
def applyOp (b : Board) : Op → Board
  | Op.place r c p => (placeMarker b r c p).2
  | Op.undo => (undoMove b).2
  | Op.switch => switchPlayer b

/-- Apply a sequence of operations. -/
def applyOps (b : Board) (ops : List Op) : Board :=
  ops.foldl applyOp b

/-- Replay a list of moves through `placeMarker`. -/
def applyMoves (b : Board) (ms : List Move) : Board :=
  ms.foldl (fun b2 m => (placeMarker b2 m.row m.col m.player).2) b

/-- Whether every placement of the list succeeds when replayed in order. -/
def allSucceed (b : Board) : List Move → Bool
  | [] => true
  | m :: ms =>
      (placeMarker b m.row m.col m.player).1 &&
        allSucceed (placeMarker b m.row m.col m.player).2 ms

/-- Call `undoMove` `k` times, collecting the returned values. -/
def undoRun (b : Board) : Nat → List (Option Move) × Board
  | 0 => ([], b)
  | k + 1 =>
      let pr := undoMove b
      let rest := undoRun pr.2 k
      (pr.1 :: rest.1, rest.2)

/-- The number of non-empty cells of the grid. -/
def filledCount (b : Board) : Nat :=
  (b.board.map fun row => row.countP fun c => decide (c ≠ none)).sum

/-- Position `c` names an in-bounds empty cell of `b`: the precondition
under which a trial placement succeeds and is undone exactly. -/
def EmptyOk (b : Board) (c : Pos) : Prop :=
  c.row < b.size ∧ c.col < b.size ∧ cellAt b c.row c.col = none

/-- The grid shape invariant of the data model: the grid is a
`size`-by-`size` matrix of cells. -/
def WFBoard (b : Board) : Prop :=
  b.board.length = b.size ∧ ∀ row ∈ b.board, row.length = b.size

/-- The inductive invariant carried across the mutating interface: the
grid is well-formed, every recorded move replays successfully from a
fresh board, the replay reproduces the grid, and the history length
matches the number of occupied cells. -/
def ReachInv (b : Board) : Prop :=
  WFBoard b ∧
  allSucceed (Board.new b.size b.winLength) b.moveHistory = true ∧
  (applyMoves (Board.new b.size b.winLength) b.moveHistory).board = b.board ∧
  b.moveHistory.length = filledCount b

/-- `rel3 v m alpha beta` is the classical fail-soft alpha-beta contract:
the pruned value `v` equals the exact value `m` whenever it falls strictly
inside the window, and otherwise bounds it from the correct side. -/
def rel3 (v m alpha beta : EInt) : Prop :=
  (v ≤ alpha → m ≤ v) ∧ (alpha < v → v < beta → v = m) ∧ (beta ≤ v → v ≤ m)

/-! ## Basic lemmas: grid reads and writes, placement and undo -/

theorem list_set_self {α : Type} {l : List α} {n : Nat} {a : α}
    (h : l[n]? = some a) : l.set n a = l := by
  have hlt : n < l.length := by
    by_contra hn
    rw [List.getElem?_eq_none (Nat.le_of_not_lt hn)] at h
    exact Option.noConfusion h
  apply List.ext_getElem?
  intro i
  rcases eq_or_ne n i with rfl | hne
  · rw [List.getElem?_set_self hlt, h]
  · exact List.getElem?_set_ne hne

theorem getD_set_self {α : Type} {l : List α} {n : Nat} {a d : α}
    (h : n < l.length) : (l.set n a).getD n d = a := by
  rw [List.getD_eq_getElem?_getD, List.getElem?_set_self h]
  rfl

theorem getD_of_length_le {α : Type} {l : List α} {n : Nat} {d : α}
    (h : l.length ≤ n) : l.getD n d = d := by
  rw [List.getD_eq_getElem?_getD, List.getElem?_eq_none h]
  rfl

/-- Clearing a cell that was just set on a previously empty position
restores the grid. -/
theorem setCell_place_undo {g : List (List Cell)} {r c : Nat} {p : Mark}
    (he : (g.getD r []).getD c none = none) :
    setCell (setCell g r c (some p)) r c none = g := by
  unfold setCell
  rcases Nat.lt_or_ge r g.length with hr | hr
  · have hrow : ((g.set r ((g.getD r []).set c (some p))).getD r []) =
        (g.getD r []).set c (some p) := getD_set_self (by simpa using hr)
    rw [hrow, List.set_set, List.set_set]
    have hrow0 : (g.getD r []).set c none = g.getD r [] := by
      rcases Nat.lt_or_ge c (g.getD r []).length with hc | hc
      · apply list_set_self
        rw [List.getD_eq_getElem?_getD] at he
        rw [List.getElem?_eq_getElem hc] at he ⊢
        simp only [Option.getD_some] at he
        rw [he]
      · exact List.set_eq_of_length_le hc
    rw [hrow0]
    apply list_set_self
    rw [List.getD_eq_getElem?_getD]
    rcases h' : g[r]? with _ | row
    · exact absurd (List.getElem?_eq_none_iff.mp h') (Nat.not_le_of_lt hr)
    · simp
  · rw [List.set_eq_of_length_le hr, List.set_eq_of_length_le hr]

/-- A placement at an in-bounds empty cell succeeds and performs exactly
the grid write and the history append. -/
theorem placeMarker_success {b : Board} {r c : Nat} (p : Mark)
    (hr : r < b.size) (hc : c < b.size) (he : cellAt b r c = none) :
    placeMarker b (r : Int) (c : Int) p =
      (true,
       { b with
          board := setCell b.board r c (some p)
          moveHistory := b.moveHistory ++ [⟨(r : Int), (c : Int), p⟩] }) := by
  unfold placeMarker
  rw [if_neg, if_neg]
  · simp
  · simp only [Int.toNat_natCast]
    rw [he]
    simp
  · omega

/-- Undo after a successful placement returns that move and restores the
state exactly. -/
theorem undo_place {b : Board} {r c : Nat} {p : Mark}
    (hr : r < b.size) (hc : c < b.size) (he : cellAt b r c = none) :
    undoMove (placeMarker b (r : Int) (c : Int) p).2 = (some ⟨(r : Int), (c : Int), p⟩, b) := by
  rw [placeMarker_success p hr hc he]
  unfold undoMove
  simp only [List.getLast?_concat, List.dropLast_concat, Int.toNat_natCast]
  rw [setCell_place_undo he]

theorem placeMarker_emptyOk {b : Board} {c : Pos} (h : EmptyOk b c) (p : Mark) :
    placeMarker b (c.row : Int) (c.col : Int) p =
      (true,
       { b with
          board := setCell b.board c.row c.col (some p)
          moveHistory := b.moveHistory ++ [⟨(c.row : Int), (c.col : Int), p⟩] }) :=
  placeMarker_success p h.1 h.2.1 h.2.2

theorem undo_place_emptyOk {b : Board} {c : Pos} (h : EmptyOk b c) (p : Mark) :
    (undoMove (placeMarker b (c.row : Int) (c.col : Int) p).2).2 = b := by
  rw [undo_place h.1 h.2.1 h.2.2]

/-- Membership in `getEmptyCells` is exactly `EmptyOk`. -/
theorem mem_getEmptyCells {b : Board} {c : Pos} :
    c ∈ getEmptyCells b ↔ EmptyOk b c := by
  unfold getEmptyCells EmptyOk
  simp only [List.mem_flatMap, List.mem_filterMap, List.mem_range]
  constructor
  · rintro ⟨row, hrow, col, hcol, hif⟩
    by_cases hcell : cellAt b row col = none
    · rw [if_pos hcell] at hif
      cases hif
      exact ⟨hrow, hcol, hcell⟩
    · rw [if_neg hcell] at hif
      exact Option.noConfusion hif
  · rintro ⟨hrow, hcol, hcell⟩
    exact ⟨c.row, hrow, c.col, hcol, by rw [if_pos hcell]⟩

/-- A board that is not a draw has an empty cell. -/
theorem getEmptyCells_ne_nil_of_not_draw {b : Board} (h : checkDraw b = false) :
    getEmptyCells b ≠ [] := by
  unfold checkDraw at h
  have h2 : ¬ ((List.range b.size).all fun row =>
      (List.range b.size).all fun col => decide (cellAt b row col ≠ none)) = true := by
    rw [h]
    simp
  simp only [List.all_eq_true, List.mem_range, decide_eq_true_eq, not_forall, not_not] at h2
  obtain ⟨row, hrow, col, hcol, hcell⟩ := h2
  exact List.ne_nil_of_mem ((mem_getEmptyCells (c := ⟨row, col⟩)).mpr ⟨hrow, hcol, hcell⟩)

/-- `clone` is the identity in this value model. -/
theorem clone_eq (b : Board) : clone b = b := by
  unfold clone
  obtain ⟨sz, wl, g, h, cp⟩ := b
  simp [List.map_id_fun']

/-! ## The search loops leave their board exactly as they found it -/

theorem maxLoop_snd (p : Mark) (child : Board → EInt → EInt → EInt × Board)
    (hp : ∀ b2 a2 b3, (child b2 a2 b3).2 = b2) :
    ∀ cells bc ms alpha beta, (∀ c ∈ cells, EmptyOk bc c) →
      (maxLoop p child cells bc ms alpha beta).2 = bc := by
  intro cells
  induction cells with
  | nil => intro bc ms alpha beta _; rfl
  | cons c rest ih =>
    intro bc ms alpha beta h
    have hc := h c (List.mem_cons_self c rest)
    rw [maxLoop]
    simp only [hp]
    rw [undo_place_emptyOk hc p]
    split
    · rfl
    · exact ih bc _ _ _ fun c2 hc2 => h c2 (List.mem_cons_of_mem _ hc2)

theorem minLoop_snd (p : Mark) (child : Board → EInt → EInt → EInt × Board)
    (hp : ∀ b2 a2 b3, (child b2 a2 b3).2 = b2) :
    ∀ cells bc ms alpha beta, (∀ c ∈ cells, EmptyOk bc c) →
      (minLoop p child cells bc ms alpha beta).2 = bc := by
  intro cells
  induction cells with
  | nil => intro bc ms alpha beta _; rfl
  | cons c rest ih =>
    intro bc ms alpha beta h
    have hc := h c (List.mem_cons_self c rest)
    rw [minLoop]
    simp only [hp]
    rw [undo_place_emptyOk hc p]
    split
    · rfl
    · exact ih bc _ _ _ fun c2 hc2 => h c2 (List.mem_cons_of_mem _ hc2)

/-- `minimax` returns the board exactly as it received it: every trial
placement is paired with an undo, also on pruning exits. -/
theorem minimax_snd (ai : AI) :
    ∀ fuel b depth isMax alpha beta, (minimax ai fuel b depth isMax alpha beta).2 = b := by
  intro fuel
  induction fuel with
  | zero => intro b depth isMax alpha beta; rfl
  | succ fuel ih =>
    intro b depth isMax alpha beta
    rw [minimax]
    split
    · rfl
    split
    · rfl
    split
    · rfl
    split
    · exact maxLoop_snd _ _ (fun b2 a2 b3 => ih b2 _ _ _ _) _ b _ _ _
        fun c hc => mem_getEmptyCells.mp hc
    · exact minLoop_snd _ _ (fun b2 a2 b3 => ih b2 _ _ _ _) _ b _ _ _
        fun c hc => mem_getEmptyCells.mp hc

theorem maxLoopNP_snd (p : Mark) (child : Board → EInt × Board)
    (hp : ∀ b2, (child b2).2 = b2) :
    ∀ cells bc ms, (∀ c ∈ cells, EmptyOk bc c) →
      (maxLoopNP p child cells bc ms).2 = bc := by
  intro cells
  induction cells with
  | nil => intro bc ms _; rfl
  | cons c rest ih =>
    intro bc ms h
    have hc := h c (List.mem_cons_self c rest)
    rw [maxLoopNP]
    simp only [hp]
    rw [undo_place_emptyOk hc p]
    exact ih bc _ fun c2 hc2 => h c2 (List.mem_cons_of_mem _ hc2)

theorem minLoopNP_snd (p : Mark) (child : Board → EInt × Board)
    (hp : ∀ b2, (child b2).2 = b2) :
    ∀ cells bc ms, (∀ c ∈ cells, EmptyOk bc c) →
      (minLoopNP p child cells bc ms).2 = bc := by
  intro cells
  induction cells with
  | nil => intro bc ms _; rfl
  | cons c rest ih =>
    intro bc ms h
    have hc := h c (List.mem_cons_self c rest)
    rw [minLoopNP]
    simp only [hp]
    rw [undo_place_emptyOk hc p]
    exact ih bc _ fun c2 hc2 => h c2 (List.mem_cons_of_mem _ hc2)

theorem minimaxNP_snd (ai : AI) :
    ∀ fuel b depth isMax, (minimaxNP ai fuel b depth isMax).2 = b := by
  intro fuel
  induction fuel with
  | zero => intro b depth isMax; rfl
  | succ fuel ih =>
    intro b depth isMax
    rw [minimaxNP]
    split
    · rfl
    split
    · rfl
    split
    · rfl
    split
    · exact maxLoopNP_snd _ _ (fun b2 => ih b2 _ _) _ b _
        fun c hc => mem_getEmptyCells.mp hc
    · exact minLoopNP_snd _ _ (fun b2 => ih b2 _ _) _ b _
        fun c hc => mem_getEmptyCells.mp hc

/-! ## Alpha-beta pruning does not change the computed values -/

theorem rel3_of_eq {v m alpha beta : EInt} (h : v = m) : rel3 v m alpha beta :=
  ⟨fun _ => h.ge, fun _ _ => h, fun _ => h.le⟩

theorem maxLoopNP_cons (p : Mark) (child : Board → EInt × Board)
    (hp : ∀ b2, (child b2).2 = b2) {bc : Board} {c : Pos} (rest : List Pos)
    (ms : EInt) (hc : EmptyOk bc c) :
    maxLoopNP p child (c :: rest) bc ms =
      maxLoopNP p child rest bc
        (max ms (child (placeMarker bc c.row c.col p).2).1) := by
  rw [maxLoopNP]
  simp only [hp]
  rw [undo_place_emptyOk hc p]

theorem minLoopNP_cons (p : Mark) (child : Board → EInt × Board)
    (hp : ∀ b2, (child b2).2 = b2) {bc : Board} {c : Pos} (rest : List Pos)
    (ms : EInt) (hc : EmptyOk bc c) :
    minLoopNP p child (c :: rest) bc ms =
      minLoopNP p child rest bc
        (min ms (child (placeMarker bc c.row c.col p).2).1) := by
  rw [minLoopNP]
  simp only [hp]
  rw [undo_place_emptyOk hc p]

theorem maxLoopNP_seed (p : Mark) (child : Board → EInt × Board)
    (hp : ∀ b2, (child b2).2 = b2) :
    ∀ cells (bc : Board), (∀ c ∈ cells, EmptyOk bc c) → ∀ a m : EInt,
      (maxLoopNP p child cells bc (max a m)).1 =
        max a (maxLoopNP p child cells bc m).1 := by
  intro cells
  induction cells with
  | nil => intro bc _ a m; rfl
  | cons c rest ih =>
    intro bc h a m
    have hc := h c (List.mem_cons_self c rest)
    have hrest : ∀ c2 ∈ rest, EmptyOk bc c2 := fun c2 hc2 => h c2 (List.mem_cons_of_mem _ hc2)
    rw [maxLoopNP_cons p child hp rest _ hc, maxLoopNP_cons p child hp rest m hc,
      max_assoc, ih bc hrest]

theorem minLoopNP_seed (p : Mark) (child : Board → EInt × Board)
    (hp : ∀ b2, (child b2).2 = b2) :
    ∀ cells (bc : Board), (∀ c ∈ cells, EmptyOk bc c) → ∀ a m : EInt,
      (minLoopNP p child cells bc (min a m)).1 =
        min a (minLoopNP p child cells bc m).1 := by
  intro cells
  induction cells with
  | nil => intro bc _ a m; rfl
  | cons c rest ih =>
    intro bc h a m
    have hc := h c (List.mem_cons_self c rest)
    have hrest : ∀ c2 ∈ rest, EmptyOk bc c2 := fun c2 hc2 => h c2 (List.mem_cons_of_mem _ hc2)
    rw [minLoopNP_cons p child hp rest _ hc, minLoopNP_cons p child hp rest m hc,
      min_assoc, ih bc hrest]

theorem le_maxLoopNP (p : Mark) (child : Board → EInt × Board)
    (hp : ∀ b2, (child b2).2 = b2) :
    ∀ cells (bc : Board), (∀ c ∈ cells, EmptyOk bc c) → ∀ m : EInt,
      m ≤ (maxLoopNP p child cells bc m).1 := by
  intro cells
  induction cells with
  | nil => intro bc _ m; exact le_refl m
  | cons c rest ih =>
    intro bc h m
    have hc := h c (List.mem_cons_self c rest)
    rw [maxLoopNP_cons p child hp rest m hc]
    exact le_trans (le_max_left _ _)
      (ih bc (fun c2 hc2 => h c2 (List.mem_cons_of_mem _ hc2)) _)

theorem minLoopNP_le (p : Mark) (child : Board → EInt × Board)
    (hp : ∀ b2, (child b2).2 = b2) :
    ∀ cells (bc : Board), (∀ c ∈ cells, EmptyOk bc c) → ∀ m : EInt,
      (minLoopNP p child cells bc m).1 ≤ m := by
  intro cells
  induction cells with
  | nil => intro bc _ m; exact le_refl m
  | cons c rest ih =>
    intro bc h m
    have hc := h c (List.mem_cons_self c rest)
    rw [minLoopNP_cons p child hp rest m hc]
    exact le_trans (ih bc (fun c2 hc2 => h c2 (List.mem_cons_of_mem _ hc2)) _)
      (min_le_left _ _)

/-- Fail-soft contract for the pruned maximizing loop against the
unpruned one. -/
theorem maxLoop_rel3 (p : Mark) (childAB : Board → EInt → EInt → EInt × Board)
    (childNP : Board → EInt × Board)
    (hpAB : ∀ b2 a2 b3, (childAB b2 a2 b3).2 = b2)
    (hpNP : ∀ b2, (childNP b2).2 = b2)
    (hrel : ∀ b2 a2 b3, a2 < b3 → rel3 (childAB b2 a2 b3).1 (childNP b2).1 a2 b3) :
    ∀ cells (bc : Board), (∀ c ∈ cells, EmptyOk bc c) →
      ∀ ms alpha beta : EInt, alpha < beta → ms ≤ alpha →
        rel3 (maxLoop p childAB cells bc ms alpha beta).1
          (maxLoopNP p childNP cells bc ms).1 alpha beta := by
  intro cells
  induction cells with
  | nil => intro bc _ ms alpha beta _ _; exact rel3_of_eq rfl
  | cons c rest ih =>
    intro bc h ms alpha beta hab hms
    have hc := h c (List.mem_cons_self c rest)
    have hrest : ∀ c2 ∈ rest, EmptyOk bc c2 := fun c2 hc2 => h c2 (List.mem_cons_of_mem _ hc2)
    obtain ⟨hr1, hr2, hr3⟩ := hrel (placeMarker bc c.row c.col p).2 alpha beta hab
    rw [maxLoopNP_cons p childNP hpNP rest ms hc]
    rw [maxLoop]
    simp only [hpAB]
    rw [undo_place_emptyOk hc p]
    set s := (childAB (placeMarker bc c.row c.col p).2 alpha beta).1 with hs
    set nv := (childNP (placeMarker bc c.row c.col p).2).1 with hnv
    rcases le_or_lt beta (max alpha s) with hcut | hcut
    · rw [if_pos hcut]
      have hbs : beta ≤ s := by
        rcases le_max_iff.mp hcut with h' | h'
        · exact absurd h' (not_le_of_lt hab)
        · exact h'
      refine ⟨fun hle => ?_, fun hlt1 hlt2 => ?_, fun _ => ?_⟩
      · exact absurd (le_trans hbs (le_trans (le_max_right ms s) hle)) (not_le_of_lt hab)
      · exact absurd (lt_of_le_of_lt (le_trans hbs (le_max_right ms s)) hlt2)
          (lt_irrefl beta)
      · calc max ms s ≤ max ms nv := max_le_max (le_refl ms) (hr3 hbs)
          _ ≤ (maxLoopNP p childNP rest bc (max ms nv)).1 :=
            le_maxLoopNP p childNP hpNP rest bc hrest _
    · rw [if_neg (not_le_of_lt hcut)]
      have hsb : s < beta := lt_of_le_of_lt (le_max_right alpha s) hcut
      rcases le_or_lt s alpha with hsa | hsa
      · -- the child failed low: its exact value is at most s
        have hnvs : nv ≤ s := hr1 hsa
        have e2 : max alpha s = alpha := max_eq_left hsa
        rw [e2]
        obtain ⟨h1, h2, h3⟩ := ih bc hrest (max ms s) alpha beta hab (max_le hms hsa)
        have hM' : (maxLoopNP p childNP rest bc (max ms s)).1 =
            max s (maxLoopNP p childNP rest bc ms).1 := by
          rw [max_comm ms s, maxLoopNP_seed p childNP hpNP rest bc hrest]
        have hM : (maxLoopNP p childNP rest bc (max ms nv)).1 =
            max nv (maxLoopNP p childNP rest bc ms).1 := by
          rw [max_comm ms nv, maxLoopNP_seed p childNP hpNP rest bc hrest]
        set R := (maxLoopNP p childNP rest bc ms).1 with hR
        refine ⟨fun hle => ?_, fun hlt1 hlt2 => ?_, fun hge => ?_⟩
        · rw [hM]
          exact le_trans (max_le_max hnvs (le_refl R)) (hM' ▸ h1 hle)
        · have hLM' := h2 hlt1 hlt2
          rw [hM'] at hLM'
          have hsR : s ≤ R := by
            by_contra hRs
            rw [max_eq_left (le_of_not_le hRs)] at hLM'
            exact absurd (hLM' ▸ hlt1) (not_lt_of_le hsa)
          rw [max_eq_right hsR] at hLM'
          rw [hM, hLM', max_eq_right (le_trans hnvs hsR)]
        · have hLM' := h3 hge
          rw [hM'] at hLM'
          rcases max_cases s R with ⟨hmx, _⟩ | ⟨hmx, _⟩
          · exact absurd (lt_of_le_of_lt (hLM'.trans hmx.le)
              (lt_of_le_of_lt hsa hab)) (not_lt_of_le hge)
          · rw [hM]
            exact le_trans (hLM'.trans hmx.le) (le_max_right nv R)
      · -- the child value is exact: s = nv
        have hsnv : s = nv := hr2 hsa hsb
        have e1 : max ms s = s := max_eq_right (le_trans hms (le_of_lt hsa))
        have e2 : max alpha s = s := max_eq_right (le_of_lt hsa)
        have e3 : max ms nv = s := by rw [← hsnv]; exact e1
        rw [e1, e2, e3]
        obtain ⟨h1, h2, h3⟩ := ih bc hrest s s beta hsb (le_refl s)
        have hsM : s ≤ (maxLoopNP p childNP rest bc s).1 :=
          le_maxLoopNP p childNP hpNP rest bc hrest s
        refine ⟨fun hle => ?_, fun hlt1 hlt2 => ?_, fun hge => ?_⟩
        · exact h1 (le_trans hle (le_of_lt hsa))
        · rcases le_or_lt (maxLoop p childAB rest bc s s beta).1 s with hLs | hLs
          · exact le_antisymm (le_trans hLs hsM) (h1 hLs)
          · exact h2 hLs hlt2
        · exact h3 hge

/-- Fail-soft contract for the pruned minimizing loop against the
unpruned one. -/
theorem minLoop_rel3 (p : Mark) (childAB : Board → EInt → EInt → EInt × Board)
    (childNP : Board → EInt × Board)
    (hpAB : ∀ b2 a2 b3, (childAB b2 a2 b3).2 = b2)
    (hpNP : ∀ b2, (childNP b2).2 = b2)
    (hrel : ∀ b2 a2 b3, a2 < b3 → rel3 (childAB b2 a2 b3).1 (childNP b2).1 a2 b3) :
    ∀ cells (bc : Board), (∀ c ∈ cells, EmptyOk bc c) →
      ∀ ms alpha beta : EInt, alpha < beta → beta ≤ ms →
        rel3 (minLoop p childAB cells bc ms alpha beta).1
          (minLoopNP p childNP cells bc ms).1 alpha beta := by
  intro cells
  induction cells with
  | nil => intro bc _ ms alpha beta _ _; exact rel3_of_eq rfl
  | cons c rest ih =>
    intro bc h ms alpha beta hab hms
    have hc := h c (List.mem_cons_self c rest)
    have hrest : ∀ c2 ∈ rest, EmptyOk bc c2 := fun c2 hc2 => h c2 (List.mem_cons_of_mem _ hc2)
    obtain ⟨hr1, hr2, hr3⟩ := hrel (placeMarker bc c.row c.col p).2 alpha beta hab
    rw [minLoopNP_cons p childNP hpNP rest ms hc]
    rw [minLoop]
    simp only [hpAB]
    rw [undo_place_emptyOk hc p]
    set s := (childAB (placeMarker bc c.row c.col p).2 alpha beta).1 with hs
    set nv := (childNP (placeMarker bc c.row c.col p).2).1 with hnv
    rcases le_or_lt (min beta s) alpha with hcut | hcut
    · rw [if_pos hcut]
      have hsa : s ≤ alpha := by
        rcases min_le_iff.mp hcut with h' | h'
        · exact absurd h' (not_le_of_lt hab)
        · exact h'
      refine ⟨fun _ => ?_, fun hlt1 hlt2 => ?_, fun hge => ?_⟩
      · calc (minLoopNP p childNP rest bc (min ms nv)).1
            ≤ min ms nv := minLoopNP_le p childNP hpNP rest bc hrest _
          _ ≤ min ms s := min_le_min (le_refl ms) (hr1 hsa)
      · exact absurd (lt_of_lt_of_le hlt1 (le_trans (min_le_right ms s) hsa))
          (lt_irrefl alpha)
      · exact absurd (le_trans hge (le_trans (min_le_right ms s) hsa))
          (not_le_of_lt hab)
    · rw [if_neg (not_le_of_lt hcut)]
      have hsa2 : alpha < s := (lt_min_iff.mp hcut).2
      rcases le_or_lt beta s with hbs | hbs
      · -- the child failed high: its exact value is at least s
        have hnvs : s ≤ nv := hr3 hbs
        have e2 : min beta s = beta := min_eq_left hbs
        rw [e2]
        obtain ⟨h1, h2, h3⟩ := ih bc hrest (min ms s) alpha beta hab (le_min hms hbs)
        have hM' : (minLoopNP p childNP rest bc (min ms s)).1 =
            min s (minLoopNP p childNP rest bc ms).1 := by
          rw [min_comm ms s, minLoopNP_seed p childNP hpNP rest bc hrest]
        have hM : (minLoopNP p childNP rest bc (min ms nv)).1 =
            min nv (minLoopNP p childNP rest bc ms).1 := by
          rw [min_comm ms nv, minLoopNP_seed p childNP hpNP rest bc hrest]
        set R := (minLoopNP p childNP rest bc ms).1 with hR
        refine ⟨fun hle => ?_, fun hlt1 hlt2 => ?_, fun hge => ?_⟩
        · have hLM' := h1 hle
          rw [hM'] at hLM'
          rcases min_cases s R with ⟨hmx, _⟩ | ⟨hmx, _⟩
          · exact absurd (lt_of_lt_of_le hsa2 (le_trans (hmx.ge.trans hLM') hle))
              (lt_irrefl alpha)
          · rw [hM]
            exact le_trans (min_le_right nv R) (hmx.ge.trans hLM')
        · have hLM' := h2 hlt1 hlt2
          rw [hM'] at hLM'
          have hRs : R ≤ s := by
            by_contra hRs
            rw [min_eq_left (le_of_not_le hRs)] at hLM'
            rw [hLM'] at hlt2
            exact absurd hlt2 (not_lt_of_le hbs)
          rw [min_eq_right hRs] at hLM'
          rw [hM, hLM', min_eq_right (le_trans hRs hnvs)]
        · have hLM' := h3 hge
          rw [hM'] at hLM'
          rw [hM]
          exact le_trans hLM' (min_le_min hnvs (le_refl R))
      · -- the child value is exact: s = nv
        have hsnv : s = nv := hr2 hsa2 hbs
        have e1 : min ms s = s := min_eq_right (le_trans (le_of_lt hbs) hms)
        have e2 : min beta s = s := min_eq_right (le_of_lt hbs)
        have e3 : min ms nv = s := by rw [← hsnv]; exact e1
        rw [e1, e2, e3]
        obtain ⟨h1, h2, h3⟩ := ih bc hrest s alpha s hsa2 (le_refl s)
        have hsM : (minLoopNP p childNP rest bc s).1 ≤ s :=
          minLoopNP_le p childNP hpNP rest bc hrest s
        refine ⟨fun hle => ?_, fun hlt1 hlt2 => ?_, fun hge => ?_⟩
        · exact h1 hle
        · rcases le_or_lt s (minLoop p childAB rest bc s alpha s).1 with hLs | hLs
          · exact le_antisymm (h3 hLs) (le_trans hsM hLs)
          · exact h2 hlt1 hLs
        · exact h3 (le_trans (le_of_lt hbs) hge)

/-- Fail-soft contract between pruned and unpruned `minimax`. -/
theorem minimax_rel3 (ai : AI) :
    ∀ fuel b depth isMax alpha beta, alpha < beta →
      rel3 (minimax ai fuel b depth isMax alpha beta).1
        (minimaxNP ai fuel b depth isMax).1 alpha beta := by
  intro fuel
  induction fuel with
  | zero => intro b depth isMax alpha beta _; exact rel3_of_eq rfl
  | succ fuel ih =>
    intro b depth isMax alpha beta hab
    rw [minimax, minimaxNP]
    split_ifs with h1 h2 h3 h4
    · exact rel3_of_eq rfl
    · exact rel3_of_eq rfl
    · exact rel3_of_eq rfl
    · exact maxLoop_rel3 ai.marker _ _
        (fun b2 a2 b3 => minimax_snd ai fuel b2 (depth + 1) false a2 b3)
        (fun b2 => minimaxNP_snd ai fuel b2 (depth + 1) false)
        (fun b2 a2 b3 h => ih b2 (depth + 1) false a2 b3 h)
        (getEmptyCells b) b (fun c hc => mem_getEmptyCells.mp hc)
        ⊥ alpha beta hab bot_le
    · exact minLoop_rel3 ai.opponentMarker _ _
        (fun b2 a2 b3 => minimax_snd ai fuel b2 (depth + 1) true a2 b3)
        (fun b2 => minimaxNP_snd ai fuel b2 (depth + 1) true)
        (fun b2 a2 b3 h => ih b2 (depth + 1) true a2 b3 h)
        (getEmptyCells b) b (fun c hc => mem_getEmptyCells.mp hc)
        ⊤ alpha beta hab le_top

/-- With the full window, alpha-beta computes the exact minimax value. -/
theorem minimax_fullWindow_eq (ai : AI) (fuel : Nat) (b : Board) (depth : Nat)
    (isMax : Bool) :
    (minimax ai fuel b depth isMax ⊥ ⊤).1 = (minimaxNP ai fuel b depth isMax).1 := by
  obtain ⟨h1, h2, h3⟩ := minimax_rel3 ai fuel b depth isMax ⊥ ⊤ bot_lt_top
  by_cases hb : (minimax ai fuel b depth isMax ⊥ ⊤).1 = ⊥
  · rw [hb] at h1 ⊢
    exact (le_bot_iff.mp (h1 (le_refl ⊥))).symm
  · by_cases ht : (minimax ai fuel b depth isMax ⊥ ⊤).1 = ⊤
    · rw [ht] at h3 ⊢
      exact (top_le_iff.mp (h3 (le_refl ⊤))).symm
    · exact h2 (bot_lt_iff_ne_bot.mpr hb) (lt_top_iff_ne_top.mpr ht)

/-- The root scans agree once the per-cell scores agree. -/
theorem bestLoop_congr (p : Mark) (childAB childNP : Board → EInt × Board)
    (hpAB : ∀ b2, (childAB b2).2 = b2) (hpNP : ∀ b2, (childNP b2).2 = b2)
    (hv : ∀ b2, (childAB b2).1 = (childNP b2).1) :
    ∀ cells (bc : Board), (∀ c ∈ cells, EmptyOk bc c) → ∀ bs best,
      bestLoop p childAB cells bc bs best = bestLoopNP p childNP cells bc bs best := by
  intro cells
  induction cells with
  | nil => intro bc _ bs best; rfl
  | cons c rest ih =>
    intro bc h bs best
    have hc := h c (List.mem_cons_self c rest)
    have hrest : ∀ c2 ∈ rest, EmptyOk bc c2 := fun c2 hc2 => h c2 (List.mem_cons_of_mem _ hc2)
    rw [bestLoop, bestLoopNP]
    simp only [hpAB, hpNP, hv]
    rw [undo_place_emptyOk hc p]
    split
    · exact ih bc hrest _ _
    · exact ih bc hrest _ _

/-- One rule loop of `makeMediumMove` computes a row-major `find?` over
trial placements, and leaves the board restored when it finds nothing. -/
theorem tryWinCells_eq (p : Mark) :
    ∀ cells bc, (∀ c ∈ cells, EmptyOk bc c) →
      tryWinCells p cells bc =
        (cells.find? fun c => checkWin (placeMarker bc c.row c.col p).2 p,
         (tryWinCells p cells bc).2) ∧
      ((cells.find? fun c => checkWin (placeMarker bc c.row c.col p).2 p) = none →
        (tryWinCells p cells bc).2 = bc) := by
  intro cells
  induction cells with
  | nil => intro bc _; exact ⟨rfl, fun _ => rfl⟩
  | cons c rest ih =>
    intro bc h
    have hc := h c (List.mem_cons_self c rest)
    have hrest : ∀ c2 ∈ rest, EmptyOk bc c2 := fun c2 hc2 => h c2 (List.mem_cons_of_mem _ hc2)
    rw [tryWinCells, List.find?_cons]
    rcases hwin : checkWin (placeMarker bc c.row c.col p).2 p with _ | _
    · simp only [hwin, cond_false]
      rw [undo_place_emptyOk hc p]
      exact ih bc hrest
    · simp only [hwin, cond_true]
      exact ⟨rfl, fun hnone => Option.noConfusion hnone⟩

/-! ## Finiteness of the unpruned search values -/

theorem toEInt_ne_bot (x : Int) : toEInt x ≠ ⊥ := WithBot.coe_ne_bot

theorem toEInt_ne_top (x : Int) : toEInt x ≠ ⊤ := by
  intro h
  rw [show (⊤ : EInt) = ((⊤ : WithTop Int) : EInt) from rfl] at h
  exact WithTop.coe_ne_top (WithBot.coe_inj.mp h)

theorem maxLoopNP_ne_top (p : Mark) (child : Board → EInt × Board)
    (hp : ∀ b2, (child b2).2 = b2)
    (hchild : ∀ b2, (child b2).1 ≠ ⊤) :
    ∀ cells (bc : Board), (∀ c ∈ cells, EmptyOk bc c) → ∀ ms : EInt,
      ms ≠ ⊤ → (maxLoopNP p child cells bc ms).1 ≠ ⊤ := by
  intro cells
  induction cells with
  | nil => intro bc _ ms hms; exact hms
  | cons c rest ih =>
    intro bc h ms hms
    have hc := h c (List.mem_cons_self c rest)
    rw [maxLoopNP_cons p child hp rest ms hc]
    refine ih bc (fun c2 hc2 => h c2 (List.mem_cons_of_mem _ hc2)) _ ?_
    rw [Ne, max_eq_top]
    rintro (h' | h')
    · exact hms h'
    · exact hchild _ h'

theorem maxLoopNP_ne_bot (p : Mark) (child : Board → EInt × Board)
    (hp : ∀ b2, (child b2).2 = b2)
    (hchild : ∀ b2, (child b2).1 ≠ ⊥) :
    ∀ cells (bc : Board), (∀ c ∈ cells, EmptyOk bc c) → ∀ ms : EInt,
      cells ≠ [] ∨ ms ≠ ⊥ → (maxLoopNP p child cells bc ms).1 ≠ ⊥ := by
  intro cells
  induction cells with
  | nil =>
    intro bc _ ms hor
    rcases hor with h' | h'
    · exact absurd rfl h'
    · exact h'
  | cons c rest ih =>
    intro bc h ms _
    have hc := h c (List.mem_cons_self c rest)
    rw [maxLoopNP_cons p child hp rest ms hc]
    refine ih bc (fun c2 hc2 => h c2 (List.mem_cons_of_mem _ hc2)) _ (Or.inr ?_)
    rw [Ne, max_eq_bot]
    rintro ⟨_, h'⟩
    exact hchild _ h'

theorem minLoopNP_ne_bot (p : Mark) (child : Board → EInt × Board)
    (hp : ∀ b2, (child b2).2 = b2)
    (hchild : ∀ b2, (child b2).1 ≠ ⊥) :
    ∀ cells (bc : Board), (∀ c ∈ cells, EmptyOk bc c) → ∀ ms : EInt,
      ms ≠ ⊥ → (minLoopNP p child cells bc ms).1 ≠ ⊥ := by
  intro cells
  induction cells with
  | nil => intro bc _ ms hms; exact hms
  | cons c rest ih =>
    intro bc h ms hms
    have hc := h c (List.mem_cons_self c rest)
    rw [minLoopNP_cons p child hp rest ms hc]
    refine ih bc (fun c2 hc2 => h c2 (List.mem_cons_of_mem _ hc2)) _ ?_
    rw [Ne, min_eq_bot]
    rintro (h' | h')
    · exact hms h'
    · exact hchild _ h'

theorem minLoopNP_ne_top (p : Mark) (child : Board → EInt × Board)
    (hp : ∀ b2, (child b2).2 = b2)
    (hchild : ∀ b2, (child b2).1 ≠ ⊤) :
    ∀ cells (bc : Board), (∀ c ∈ cells, EmptyOk bc c) → ∀ ms : EInt,
      cells ≠ [] ∨ ms ≠ ⊤ → (minLoopNP p child cells bc ms).1 ≠ ⊤ := by
  intro cells
  induction cells with
  | nil =>
    intro bc _ ms hor
    rcases hor with h' | h'
    · exact absurd rfl h'
    · exact h'
  | cons c rest ih =>
    intro bc h ms _
    have hc := h c (List.mem_cons_self c rest)
    rw [minLoopNP_cons p child hp rest ms hc]
    refine ih bc (fun c2 hc2 => h c2 (List.mem_cons_of_mem _ hc2)) _ (Or.inr ?_)
    rw [Ne, min_eq_top]
    rintro ⟨_, h'⟩
    exact hchild _ h'

/-- The unpruned minimax value is always a finite score. -/
theorem minimaxNP_finite (ai : AI) :
    ∀ fuel b depth isMax,
      (minimaxNP ai fuel b depth isMax).1 ≠ ⊥ ∧ (minimaxNP ai fuel b depth isMax).1 ≠ ⊤ := by
  intro fuel
  induction fuel with
  | zero =>
    intro b depth isMax
    rw [minimaxNP]
    split_ifs
    · exact ⟨toEInt_ne_bot _, toEInt_ne_top _⟩
    · exact ⟨toEInt_ne_bot _, toEInt_ne_top _⟩
    · exact ⟨toEInt_ne_bot _, toEInt_ne_top _⟩
  | succ fuel ih =>
    intro b depth isMax
    rw [minimaxNP]
    split_ifs with h1 h2 h3 h4
    · exact ⟨toEInt_ne_bot _, toEInt_ne_top _⟩
    · exact ⟨toEInt_ne_bot _, toEInt_ne_top _⟩
    · exact ⟨toEInt_ne_bot _, toEInt_ne_top _⟩
    · have hdraw : checkDraw b = false := by
        rcases hd : checkDraw b with _ | _
        · rfl
        · exact absurd (by rw [hd]; rfl) h3
      have hne := getEmptyCells_ne_nil_of_not_draw hdraw
      constructor
      · exact maxLoopNP_ne_bot ai.marker _ (fun b2 => minimaxNP_snd ai fuel b2 _ _)
          (fun b2 => (ih b2 (depth + 1) false).1) (getEmptyCells b) b
          (fun c hc => mem_getEmptyCells.mp hc) ⊥ (Or.inl hne)
      · exact maxLoopNP_ne_top ai.marker _ (fun b2 => minimaxNP_snd ai fuel b2 _ _)
          (fun b2 => (ih b2 (depth + 1) false).2) (getEmptyCells b) b
          (fun c hc => mem_getEmptyCells.mp hc) ⊥ (by
            intro hcon
            exact absurd hcon bot_lt_top.ne)
    · have hdraw : checkDraw b = false := by
        rcases hd : checkDraw b with _ | _
        · rfl
        · exact absurd (by rw [hd]; rfl) h3
      have hne := getEmptyCells_ne_nil_of_not_draw hdraw
      constructor
      · exact minLoopNP_ne_bot ai.opponentMarker _ (fun b2 => minimaxNP_snd ai fuel b2 _ _)
          (fun b2 => (ih b2 (depth + 1) true).1) (getEmptyCells b) b
          (fun c hc => mem_getEmptyCells.mp hc) ⊤ (by
            intro hcon
            exact absurd hcon bot_lt_top.ne')
      · exact minLoopNP_ne_top ai.opponentMarker _ (fun b2 => minimaxNP_snd ai fuel b2 _ _)
          (fun b2 => (ih b2 (depth + 1) true).2) (getEmptyCells b) b
          (fun c hc => mem_getEmptyCells.mp hc) ⊤ (Or.inl hne)

/-! ## The root scan returns a legal move -/

theorem bestLoop_some_stays (p : Mark) (child : Board → EInt × Board) :
    ∀ cells (bc : Board) (bs : EInt) (x : Pos),
      (bestLoop p child cells bc bs (some x)).1 ≠ none := by
  intro cells
  induction cells with
  | nil => intro bc bs x hcon; exact Option.noConfusion hcon
  | cons c rest ih =>
    intro bc bs x
    rw [bestLoop]
    split
    · exact ih _ _ c
    · exact ih _ _ x

theorem bestLoop_mem (p : Mark) (child : Board → EInt × Board)
    (hp : ∀ b2, (child b2).2 = b2) :
    ∀ cells (bc : Board), (∀ c ∈ cells, EmptyOk bc c) →
      ∀ (bs : EInt) (best : Option Pos),
        (∀ x, best = some x → EmptyOk bc x) →
        ∀ m, (bestLoop p child cells bc bs best).1 = some m → EmptyOk bc m := by
  intro cells
  induction cells with
  | nil =>
    intro bc _ bs best hbest m hm
    exact hbest m hm
  | cons c rest ih =>
    intro bc h bs best hbest m hm
    have hc := h c (List.mem_cons_self c rest)
    have hrest : ∀ c2 ∈ rest, EmptyOk bc c2 := fun c2 hc2 => h c2 (List.mem_cons_of_mem _ hc2)
    rw [bestLoop] at hm
    simp only [hp] at hm
    rw [undo_place_emptyOk hc p] at hm
    rcases Decidable.em (bs < (child (placeMarker bc c.row c.col p).2).1) with hlt | hlt
    · rw [if_pos hlt] at hm
      exact ih bc hrest _ (some c) (fun x hx => by cases hx; exact hc) m hm
    · rw [if_neg hlt] at hm
      exact ih bc hrest _ best hbest m hm

/-! ## The heuristic tier -/

/-- `makeMediumMove` computes exactly the specified rule cascade. -/
theorem makeMediumMove_fst_eq_spec (ai : AI) (b : Board) (rng : Nat) :
    (makeMediumMove ai b rng).1 = heuristicCascadeSpec ai b rng := by
  have hvalid : ∀ c ∈ getEmptyCells b, EmptyOk b c := fun c hc => mem_getEmptyCells.mp hc
  obtain ⟨he1, hr1⟩ := tryWinCells_eq ai.marker (getEmptyCells b) b hvalid
  obtain ⟨he2, hr2⟩ := tryWinCells_eq ai.opponentMarker (getEmptyCells b) b hvalid
  simp only [makeMediumMove, heuristicCascadeSpec, clone_eq]
  rcases hf1 : (getEmptyCells b).find?
      (fun c => checkWin (placeMarker b c.row c.col ai.marker).2 ai.marker) with _ | c1
  · have ht1 : tryWinCells ai.marker (getEmptyCells b) b = (none, b) := by
      rw [he1, hf1, hr1 hf1]
    rcases hf2 : (getEmptyCells b).find?
        (fun c => checkWin (placeMarker b c.row c.col ai.opponentMarker).2
          ai.opponentMarker) with _ | c2
    · have ht2 : tryWinCells ai.opponentMarker (getEmptyCells b) b = (none, b) := by
        rw [he2, hf2, hr2 hf2]
      simp only [ht1, hf1, ht2, hf2]
      split_ifs with hcen
      · rfl
      · rcases hcor : (corners b).find? (fun c => decide (cellAt b c.row c.col = none)) with _ | cr
        · simp only [hcor]
        · simp only [hcor]
    · have ht2 : tryWinCells ai.opponentMarker (getEmptyCells b) b =
          (some c2, (tryWinCells ai.opponentMarker (getEmptyCells b) b).2) := by
        rw [he2, hf2]
      simp only [ht1, hf1]
      rw [ht2, hf2]
  · have ht1 : tryWinCells ai.marker (getEmptyCells b) b =
        (some c1, (tryWinCells ai.marker (getEmptyCells b) b).2) := by
      rw [he1, hf1]
    rw [ht1, hf1]

theorem mem_corners {b : Board} {x : Pos} :
    x ∈ corners b ↔ x = ⟨0, 0⟩ ∨ x = ⟨0, b.size - 1⟩ ∨
      x = ⟨b.size - 1, 0⟩ ∨ x = ⟨b.size - 1, b.size - 1⟩ := by
  simp [corners]

theorem makeRandomMove_none_iff (b : Board) (rng : Nat) :
    (makeRandomMove b rng).1 = none ↔ getEmptyCells b = [] := by
  simp only [makeRandomMove]
  rcases hne : (getEmptyCells b).isEmpty with _ | _
  · have hlen : 0 < (getEmptyCells b).length := by
      rcases Nat.eq_zero_or_pos (getEmptyCells b).length with h' | h'
      · rw [List.isEmpty_iff_length_eq_zero.mpr h'] at hne
        exact Bool.noConfusion hne
      · exact h'
    simp only [hne, Bool.false_eq_true, if_false]
    constructor
    · intro h
      rw [List.getElem?_eq_none_iff] at h
      exact absurd h (Nat.not_le_of_lt (Nat.mod_lt _ hlen))
    · intro h
      rw [h] at hlen
      exact absurd hlen (lt_irrefl 0)
  · rw [List.isEmpty_iff] at hne
    simp [hne]

theorem makeRandomMove_mem (b : Board) (rng : Nat) {m : Pos}
    (h : (makeRandomMove b rng).1 = some m) : m ∈ getEmptyCells b := by
  simp only [makeRandomMove] at h
  rcases hne : (getEmptyCells b).isEmpty with _ | _
  · rw [hne] at h
    simp only [Bool.false_eq_true, if_false] at h
    exact List.getElem?_mem h
  · rw [hne] at h
    simp at h

/-- On a board with an empty cell (of positive size) the heuristic tier
returns some in-bounds empty cell. -/
theorem makeMediumMove_legal (ai : AI) (b : Board) (rng : Nat)
    (hsz : 1 ≤ b.size) (hne : getEmptyCells b ≠ []) :
    ∃ m, (makeMediumMove ai b rng).1 = some m ∧ EmptyOk b m := by
  rw [makeMediumMove_fst_eq_spec]
  unfold heuristicCascadeSpec
  rcases hf1 : (getEmptyCells b).find?
      (fun c => checkWin (placeMarker b c.row c.col ai.marker).2 ai.marker) with _ | c1
  · rcases hf2 : (getEmptyCells b).find?
        (fun c => checkWin (placeMarker b c.row c.col ai.opponentMarker).2
          ai.opponentMarker) with _ | c2
    · simp only [hf1, hf2]
      split_ifs with hcen
      · exact ⟨⟨b.size / 2, b.size / 2⟩, rfl,
          Nat.div_lt_self hsz one_lt_two, Nat.div_lt_self hsz one_lt_two, hcen⟩
      · rcases hcor : (corners b).find? (fun c => decide (cellAt b c.row c.col = none))
            with _ | cr
        · simp only [hcor]
          rcases hx : (makeRandomMove b rng).1 with _ | m
          · exact absurd ((makeRandomMove_none_iff b rng).mp hx) hne
          · exact ⟨m, rfl, mem_getEmptyCells.mp (makeRandomMove_mem b rng hx)⟩
        · simp only [hcor]
          refine ⟨cr, rfl, ?_⟩
          have hcell : cellAt b cr.row cr.col = none := by
            have := List.find?_some hcor
            exact of_decide_eq_true this
          have hmem := mem_corners.mp (List.mem_of_find?_eq_some hcor)
          have hs1 : b.size - 1 < b.size := Nat.sub_lt hsz Nat.one_pos
          rcases hmem with h' | h' | h' | h'
          · rw [h']; exact ⟨hsz, hsz, by rw [← h']; exact hcell⟩
          · rw [h']; exact ⟨hsz, hs1, by rw [← h']; exact hcell⟩
          · rw [h']; exact ⟨hs1, hsz, by rw [← h']; exact hcell⟩
          · rw [h']; exact ⟨hs1, hs1, by rw [← h']; exact hcell⟩
    · simp only [hf1, hf2]
      exact ⟨c2, rfl, mem_getEmptyCells.mp (List.mem_of_find?_eq_some hf2)⟩
  · simp only [hf1]
    exact ⟨c1, rfl, mem_getEmptyCells.mp (List.mem_of_find?_eq_some hf1)⟩

/-- On a full board the heuristic tier returns the empty sentinel. -/
theorem makeMediumMove_none_of_nil (ai : AI) (b : Board) (rng : Nat)
    (hsz : 1 ≤ b.size) (hnil : getEmptyCells b = []) :
    (makeMediumMove ai b rng).1 = none := by
  rw [makeMediumMove_fst_eq_spec]
  unfold heuristicCascadeSpec
  rw [hnil]
  simp only [List.find?_nil]
  have hclosed : ∀ r c : Nat, r < b.size → c < b.size → cellAt b r c ≠ none := by
    intro r c hr hc hcell
    have : (⟨r, c⟩ : Pos) ∈ getEmptyCells b := mem_getEmptyCells.mpr ⟨hr, hc, hcell⟩
    rw [hnil] at this
    exact absurd this (List.not_mem_nil _)
  have hs1 : b.size - 1 < b.size := Nat.sub_lt hsz Nat.one_pos
  rw [if_neg (hclosed _ _ (Nat.div_lt_self hsz one_lt_two) (Nat.div_lt_self hsz one_lt_two))]
  have hcor : (corners b).find? (fun c => decide (cellAt b c.row c.col = none)) = none := by
    rw [List.find?_eq_none]
    intro x hx
    rcases mem_corners.mp hx with h' | h' | h' | h'
    · rw [h']; simpa using hclosed 0 0 hsz hsz
    · rw [h']; simpa using hclosed 0 (b.size - 1) hsz hs1
    · rw [h']; simpa using hclosed (b.size - 1) 0 hs1 hsz
    · rw [h']; simpa using hclosed (b.size - 1) (b.size - 1) hs1 hs1
  rw [hcor]
  unfold makeRandomMove
  rw [hnil]
  rfl

/-! ## The adversarial tier -/

theorem makeMinimaxMove_legal (ai : AI) (b : Board) (rng : Nat) (hsz : 1 ≤ b.size) :
    ((makeMinimaxMove ai b rng).1 = none ↔ getEmptyCells b = []) ∧
    (∀ m, (makeMinimaxMove ai b rng).1 = some m → EmptyOk b m) := by
  simp only [makeMinimaxMove, clone_eq]
  by_cases h0 : (getEmptyCells b).length = 0
  · rw [if_pos h0]
    have hnil := List.length_eq_zero.mp h0
    exact ⟨by simp [hnil], fun m hm => Option.noConfusion hm⟩
  · rw [if_neg h0]
    have hne : getEmptyCells b ≠ [] := by
      intro h'
      exact h0 (by rw [h']; rfl)
    by_cases h1 : (getEmptyCells b).length = 1
    · rw [if_pos h1]
      constructor
      · constructor
        · intro hcon
          rw [List.getElem?_eq_none_iff] at hcon
          omega
        · intro h'
          exact absurd h' hne
      · intro m hm
        exact mem_getEmptyCells.mp (List.getElem?_mem hm)
    · rw [if_neg h1]
      by_cases hg : b.size * b.size - 3 < (getEmptyCells b).length
      · rw [if_pos hg]
        obtain ⟨m, hm, hok⟩ := makeMediumMove_legal ai b rng hsz hne
        constructor
        · constructor
          · intro hcon
            rw [hm] at hcon
            exact Option.noConfusion hcon
          · intro h'
            exact absurd h' hne
        · intro m2 hm2
          rw [hm] at hm2
          cases hm2
          exact hok
      · rw [if_neg hg]
        have hvalid : ∀ c ∈ getEmptyCells b, EmptyOk b c := fun c hc => mem_getEmptyCells.mp hc
        have hpch : ∀ b2, ((minimax ai (ai.maxDepth + 1) b2 0 false ⊥ ⊤)).2 = b2 :=
          fun b2 => minimax_snd ai (ai.maxDepth + 1) b2 0 false ⊥ ⊤
        constructor
        · constructor
          · intro hcon
            obtain ⟨c, rest, hcr⟩ := List.exists_cons_of_ne_nil hne
            rw [hcr] at hcon hvalid
            rw [bestLoop] at hcon
            simp only [hpch] at hcon
            rw [undo_place_emptyOk (hvalid c (List.mem_cons_self c rest)) ai.marker] at hcon
            have hsbot : (minimax ai (ai.maxDepth + 1)
                (placeMarker b c.row c.col ai.marker).2 0 false ⊥ ⊤).1 ≠ ⊥ := by
              rw [minimax_fullWindow_eq]
              exact (minimaxNP_finite ai (ai.maxDepth + 1) _ 0 false).1
            rw [if_pos (bot_lt_iff_ne_bot.mpr hsbot)] at hcon
            exact absurd hcon (bestLoop_some_stays ai.marker _ rest b _ c)
          · intro h'
            exact absurd h' hne
        · intro m hm
          exact bestLoop_mem ai.marker _ hpch (getEmptyCells b) b hvalid ⊥ none
            (fun x hx => Option.noConfusion hx) m hm

/-! ## Placement: failure, success and framing -/

theorem placeMarker_fail {b : Board} {row col : Int} {p : Mark}
    (h : ¬ (0 ≤ row ∧ row < (b.size : Int) ∧ 0 ≤ col ∧ col < (b.size : Int) ∧
        cellAt b row.toNat col.toNat = none)) :
    placeMarker b row col p = (false, b) := by
  unfold placeMarker
  split_ifs with h1 h2
  · rfl
  · rfl
  · push_neg at h h1
    rcases not_ne_iff.mp h2 with hcell
    obtain ⟨ha, hb', hc, hd⟩ := h1
    exact absurd hcell (h ha hb' hc hd)

theorem placeMarker_succeeds_iff {b : Board} {row col : Int} {p : Mark} :
    (placeMarker b row col p).1 = true ↔
      0 ≤ row ∧ row < (b.size : Int) ∧ 0 ≤ col ∧ col < (b.size : Int) ∧
        cellAt b row.toNat col.toNat = none := by
  constructor
  · intro h
    by_contra hcon
    rw [placeMarker_fail hcon] at h
    exact Bool.noConfusion h
  · rintro ⟨h1, h2, h3, h4, h5⟩
    unfold placeMarker
    rw [if_neg (by omega), if_neg (by rw [h5]; simp)]

/-- Undo after any successful placement (integer coordinates) returns the
move and restores the state. -/
theorem undo_place_int {b : Board} {row col : Int} {p : Mark}
    (h : (placeMarker b row col p).1 = true) :
    undoMove (placeMarker b row col p).2 = (some ⟨row, col, p⟩, b) := by
  obtain ⟨h1, h2, h3, h4, h5⟩ := placeMarker_succeeds_iff.mp h
  have hrow : row = (row.toNat : Int) := (Int.toNat_of_nonneg h1).symm
  have hcol : col = (col.toNat : Int) := (Int.toNat_of_nonneg h3).symm
  have hr2 : row.toNat < b.size := by omega
  have hc2 : col.toNat < b.size := by omega
  rw [hrow, hcol]
  exact undo_place hr2 hc2 h5

/-- Reading any cell other than the written one is unaffected. -/
theorem cellAt_setCell_ne {b : Board} {rt ct : Nat} {v : Cell} {r c : Nat}
    (h : ¬ (r = rt ∧ c = ct)) :
    cellAt { b with board := setCell b.board rt ct v } r c = cellAt b r c := by
  show ((setCell b.board rt ct v).getD r []).getD c none = cellAt b r c
  unfold cellAt setCell
  rcases eq_or_ne r rt with rfl | hrne
  · have hcne : c ≠ ct := fun hc => h ⟨rfl, hc⟩
    rcases Nat.lt_or_ge r b.board.length with hr | hr
    · rw [List.getD_eq_getElem?_getD (b.board.set r ((b.board.getD r []).set ct v)),
        List.getElem?_set_self (by simpa using hr)]
      simp only [Option.getD_some]
      rw [List.getD_eq_getElem?_getD ((b.board.getD r []).set ct v),
        List.getElem?_set_ne (Ne.symm hcne), ← List.getD_eq_getElem?_getD]
    · rw [List.set_eq_of_length_le hr]
  · rw [List.getD_eq_getElem?_getD (b.board.set rt ((b.board.getD rt []).set ct v)),
      List.getElem?_set_ne (Ne.symm hrne), ← List.getD_eq_getElem?_getD]

/-- Reading back the written cell, on a well-formed grid. -/
theorem cellAt_setCell_self {b : Board} {rt ct : Nat} {v : Cell}
    (hwf : WFBoard b) (hr : rt < b.size) (hc : ct < b.size) :
    cellAt { b with board := setCell b.board rt ct v } rt ct = v := by
  show ((setCell b.board rt ct v).getD rt []).getD ct none = v
  unfold setCell
  have hrl : rt < b.board.length := by rw [hwf.1]; exact hr
  have hrow : b.board.getD rt [] = b.board[rt] := by
    rw [List.getD_eq_getElem?_getD, List.getElem?_eq_getElem hrl]
    rfl
  have hcl : ct < (b.board.getD rt []).length := by
    rw [hrow, hwf.2 _ (List.getElem_mem hrl)]
    exact hc
  rw [List.getD_eq_getElem?_getD (b.board.set rt ((b.board.getD rt []).set ct v)),
    List.getElem?_set_self (by simpa using hrl)]
  simp only [Option.getD_some]
  exact getD_set_self hcl

theorem WFBoard_setCell {b : Board} {rt ct : Nat} {v : Cell} (hwf : WFBoard b) :
    WFBoard { b with board := setCell b.board rt ct v } := by
  obtain ⟨hlen, hrows⟩ := hwf
  have hgoal : (setCell b.board rt ct v).length = b.size ∧
      ∀ row ∈ setCell b.board rt ct v, row.length = b.size := by
    unfold setCell
    rcases Nat.lt_or_ge rt b.board.length with hr | hr
    · constructor
      · rw [List.length_set]
        exact hlen
      · intro row hrow
        rcases List.mem_or_eq_of_mem_set hrow with h' | rfl
        · exact hrows _ h'
        · rw [List.length_set]
          have hget : b.board.getD rt [] = b.board[rt] := by
            rw [List.getD_eq_getElem?_getD, List.getElem?_eq_getElem hr]
            rfl
          rw [hget]
          exact hrows _ (List.getElem_mem hr)
    · rw [List.set_eq_of_length_le hr]
      exact ⟨hlen, hrows⟩
  exact hgoal

/-! ## Counting occupied cells -/

theorem countP_set_succ {α : Type} {l : List α} {n : Nat} {a x : α} {q : α → Bool}
    (h : l[n]? = some a) (ha : q a = false) (hx : q x = true) :
    (l.set n x).countP q = l.countP q + 1 := by
  induction l generalizing n with
  | nil => simp at h
  | cons y t ih =>
    cases n with
    | zero =>
      simp only [List.getElem?_cons_zero, Option.some.injEq] at h
      subst h
      rw [List.set_cons_zero, List.countP_cons, List.countP_cons, ha, hx]
      simp
    | succ n =>
      simp only [List.getElem?_cons_succ] at h
      rw [List.set_cons_succ, List.countP_cons, List.countP_cons, ih h]
      omega

theorem sum_map_set_succ {g : List (List Cell)} {f : List Cell → Nat} :
    ∀ {r : Nat} {u v : List Cell}, g[r]? = some u → f v = f u + 1 →
      ((g.set r v).map f).sum = (g.map f).sum + 1 := by
  induction g with
  | nil => intro r u v h _; simp at h
  | cons y t ih =>
    intro r u v h hf
    cases r with
    | zero =>
      simp only [List.getElem?_cons_zero, Option.some.injEq] at h
      subst h
      rw [List.set_cons_zero]
      simp only [List.map_cons, List.sum_cons, hf]
      omega
    | succ r =>
      simp only [List.getElem?_cons_succ] at h
      rw [List.set_cons_succ]
      simp only [List.map_cons, List.sum_cons, ih h hf]
      omega

theorem filledCount_congr {u v : Board} (h : u.board = v.board) :
    filledCount u = filledCount v := by
  unfold filledCount
  rw [h]

theorem filledCount_place {b : Board} {r c : Nat} {p : Mark}
    (hwf : WFBoard b) (hr : r < b.size) (hc : c < b.size) (he : cellAt b r c = none) :
    filledCount { b with board := setCell b.board r c (some p) } = filledCount b + 1 := by
  unfold filledCount setCell
  have hrl : r < b.board.length := by rw [hwf.1]; exact hr
  have hget : b.board.getD r [] = b.board[r] := by
    rw [List.getD_eq_getElem?_getD, List.getElem?_eq_getElem hrl]
    rfl
  have hcl : c < (b.board.getD r []).length := by
    rw [hget, hwf.2 _ (List.getElem_mem hrl)]
    exact hc
  apply sum_map_set_succ (u := b.board.getD r [])
  · rw [List.getElem?_eq_getElem hrl, hget]
  · apply countP_set_succ (a := none)
    · unfold cellAt at he
      rw [List.getD_eq_getElem?_getD, List.getElem?_eq_getElem hcl] at he
      simp only [Option.getD_some] at he
      rw [List.getElem?_eq_getElem hcl, he]
    · simp
    · simp

/-! ## Operations preserve well-formedness and the scalar fields -/

theorem WFBoard_placeMarker {b : Board} {row col : Int} {p : Mark} (hwf : WFBoard b) :
    WFBoard (placeMarker b row col p).2 := by
  unfold placeMarker
  split_ifs
  · exact hwf
  · exact hwf
  · exact WFBoard_setCell hwf

theorem WFBoard_undoMove {b : Board} (hwf : WFBoard b) : WFBoard (undoMove b).2 := by
  unfold undoMove
  rcases hm : b.moveHistory.getLast? with _ | m
  · exact hwf
  · exact WFBoard_setCell hwf

theorem placeMarker_size {b : Board} {row col : Int} {p : Mark} :
    (placeMarker b row col p).2.size = b.size := by
  unfold placeMarker
  split_ifs
  · rfl
  · rfl
  · rfl

theorem placeMarker_winLength {b : Board} {row col : Int} {p : Mark} :
    (placeMarker b row col p).2.winLength = b.winLength := by
  unfold placeMarker
  split_ifs
  · rfl
  · rfl
  · rfl

theorem undoMove_size {b : Board} : (undoMove b).2.size = b.size := by
  unfold undoMove
  rcases b.moveHistory.getLast? with _ | m
  · rfl
  · rfl

theorem undoMove_winLength {b : Board} : (undoMove b).2.winLength = b.winLength := by
  unfold undoMove
  rcases b.moveHistory.getLast? with _ | m
  · rfl
  · rfl

theorem applyMoves_size (b : Board) (ms : List Move) :
    (applyMoves b ms).size = b.size ∧ (applyMoves b ms).winLength = b.winLength := by
  induction ms generalizing b with
  | nil => exact ⟨rfl, rfl⟩
  | cons m t ih =>
    unfold applyMoves
    rw [List.foldl_cons]
    obtain ⟨h1, h2⟩ := ih (placeMarker b m.row m.col m.player).2
    refine ⟨?_, ?_⟩
    · rw [← @placeMarker_size b m.row m.col m.player]
      exact h1
    · rw [← @placeMarker_winLength b m.row m.col m.player]
      exact h2

theorem WFBoard_applyMoves {b : Board} (hwf : WFBoard b) (ms : List Move) :
    WFBoard (applyMoves b ms) := by
  induction ms generalizing b with
  | nil => exact hwf
  | cons m t ih =>
    unfold applyMoves
    rw [List.foldl_cons]
    exact ih (WFBoard_placeMarker hwf)

theorem WFBoard_new (n w : Nat) : WFBoard (Board.new n w) := by
  constructor
  · simp [Board.new]
  · intro row hrow
    rw [List.eq_of_mem_replicate hrow]
    simp [Board.new]

/-! ## Replay algebra -/

theorem applyMoves_append (b : Board) (ms : List Move) (m : Move) :
    applyMoves b (ms ++ [m]) = (placeMarker (applyMoves b ms) m.row m.col m.player).2 := by
  unfold applyMoves
  rw [List.foldl_append]
  rfl

theorem allSucceed_append (b : Board) (ms : List Move) (m : Move) :
    allSucceed b (ms ++ [m]) =
      (allSucceed b ms && (placeMarker (applyMoves b ms) m.row m.col m.player).1) := by
  induction ms generalizing b with
  | nil => simp [allSucceed, applyMoves]
  | cons m0 t ih =>
    show allSucceed b (m0 :: (t ++ [m])) = _
    unfold allSucceed
    rw [ih]
    rw [Bool.and_assoc]
    rfl

theorem cellAt_congr {b1 b2 : Board} (h : b1.board = b2.board) (r c : Nat) :
    cellAt b1 r c = cellAt b2 r c := by
  unfold cellAt
  rw [h]

theorem placeMarker_success_int {b : Board} {row col : Int} {p : Mark}
    (h : (placeMarker b row col p).1 = true) :
    (placeMarker b row col p).2 =
      { b with
          board := setCell b.board row.toNat col.toNat (some p)
          moveHistory := b.moveHistory ++ [⟨row, col, p⟩] } := by
  obtain ⟨h1, h2, h3, h4, h5⟩ := placeMarker_succeeds_iff.mp h
  unfold placeMarker
  rw [if_neg (by omega), if_neg (by rw [h5]; simp)]

/-! ## The reachability invariant is preserved by every operation -/

theorem ReachInv_new (n w : Nat) : ReachInv (Board.new n w) := by
  refine ⟨WFBoard_new n w, rfl, rfl, ?_⟩
  show 0 = filledCount (Board.new n w)
  unfold filledCount Board.new
  simp only
  rw [List.map_replicate]
  have hrow : (List.replicate n (none : Cell)).countP (fun c => decide (c ≠ none)) = 0 := by
    rw [List.countP_eq_zero]
    intro a ha
    rw [List.eq_of_mem_replicate ha]
    simp
  rw [hrow]
  simp [List.sum_replicate]

theorem ReachInv_place {b : Board} (hinv : ReachInv b) (row col : Int) (p : Mark) :
    ReachInv (placeMarker b row col p).2 := by
  obtain ⟨hwf, hsucc, hreplay, hcount⟩ := hinv
  by_cases hs : (placeMarker b row col p).1 = true
  · obtain ⟨h1, h2, h3, h4, h5⟩ := placeMarker_succeeds_iff.mp hs
    rw [placeMarker_success_int hs]
    have hrN : row.toNat < b.size := by omega
    have hcN : col.toNat < b.size := by omega
    -- the replayed board has the same grid and dimensions as b
    have hAsz := applyMoves_size (Board.new b.size b.winLength) b.moveHistory
    set A := applyMoves (Board.new b.size b.winLength) b.moveHistory with hA
    have hAsize : A.size = b.size := by rw [hAsz.1]; rfl
    have hAcell : cellAt A row.toNat col.toNat = none := by
      rw [cellAt_congr hreplay]
      exact h5
    have hAsucc : (placeMarker A row col p).1 = true := by
      rw [placeMarker_succeeds_iff, hAsize]
      exact ⟨h1, h2, h3, h4, hAcell⟩
    refine ⟨WFBoard_setCell hwf, ?_, ?_, ?_⟩
    · show allSucceed (Board.new b.size b.winLength) (b.moveHistory ++ [⟨row, col, p⟩]) = true
      rw [allSucceed_append]
      rw [hsucc, ← hA, hAsucc]
      rfl
    · show (applyMoves (Board.new b.size b.winLength)
          (b.moveHistory ++ [⟨row, col, p⟩])).board = _
      rw [applyMoves_append, ← hA]
      rw [placeMarker_success_int hAsucc]
      show setCell A.board row.toNat col.toNat (some p) = setCell b.board row.toNat col.toNat (some p)
      rw [hreplay]
    · show (b.moveHistory ++ [(⟨row, col, p⟩ : Move)]).length = _
      rw [List.length_append, List.length_singleton, hcount]
      exact (filledCount_place hwf hrN hcN h5).symm
  · have hfail : placeMarker b row col p = (false, b) := by
      apply placeMarker_fail
      intro hcond
      exact hs (placeMarker_succeeds_iff.mpr hcond)
    rw [hfail]
    exact ⟨hwf, hsucc, hreplay, hcount⟩

theorem ReachInv_undo {b : Board} (hinv : ReachInv b) : ReachInv (undoMove b).2 := by
  obtain ⟨hwf, hsucc, hreplay, hcount⟩ := hinv
  rcases hlast : b.moveHistory.getLast? with _ | mv
  · unfold undoMove
    rw [hlast]
    exact ⟨hwf, hsucc, hreplay, hcount⟩
  · have hne : b.moveHistory ≠ [] := by
      intro h'
      rw [h'] at hlast
      exact Option.noConfusion hlast
    have hmv : mv = b.moveHistory.getLast hne := by
      have h2 := List.getLast?_eq_getLast b.moveHistory hne
      rw [hlast] at h2
      exact Option.some.inj h2
    have hsplit : b.moveHistory.dropLast ++ [mv] = b.moveHistory := by
      rw [hmv]
      exact List.dropLast_concat_getLast hne
    have hsucc2 : allSucceed (Board.new b.size b.winLength)
        (b.moveHistory.dropLast ++ [mv]) = true := by
      rw [hsplit]
      exact hsucc
    rw [allSucceed_append, Bool.and_eq_true] at hsucc2
    obtain ⟨hsuccL, hsuccMv⟩ := hsucc2
    have hAsize : (applyMoves (Board.new b.size b.winLength)
        b.moveHistory.dropLast).size = b.size := by
      rw [(applyMoves_size (Board.new b.size b.winLength) b.moveHistory.dropLast).1]
      rfl
    have hAwf : WFBoard (applyMoves (Board.new b.size b.winLength) b.moveHistory.dropLast) :=
      WFBoard_applyMoves (WFBoard_new b.size b.winLength) _
    obtain ⟨g1, g2, g3, g4, g5⟩ := placeMarker_succeeds_iff.mp hsuccMv
    rw [hAsize] at g2 g4
    have hboard : b.board = setCell
        (applyMoves (Board.new b.size b.winLength) b.moveHistory.dropLast).board
        mv.row.toNat mv.col.toNat (some mv.player) := by
      have h3 : (applyMoves (Board.new b.size b.winLength)
          (b.moveHistory.dropLast ++ [mv])).board = b.board := by
        rw [hsplit]
        exact hreplay
      rw [applyMoves_append, placeMarker_success_int hsuccMv] at h3
      exact h3.symm
    have hrestore : setCell b.board mv.row.toNat mv.col.toNat none =
        (applyMoves (Board.new b.size b.winLength) b.moveHistory.dropLast).board := by
      rw [hboard]
      exact setCell_place_undo g5
    unfold undoMove
    rw [hlast]
    show ReachInv { b with
        board := setCell b.board mv.row.toNat mv.col.toNat none
        moveHistory := b.moveHistory.dropLast }
    have hlen : b.moveHistory.dropLast.length + 1 = b.moveHistory.length := by
      have h4 := congrArg List.length hsplit
      rw [List.length_append, List.length_singleton] at h4
      exact h4
    have hcountA : filledCount b = filledCount
        (applyMoves (Board.new b.size b.winLength) b.moveHistory.dropLast) + 1 := by
      have hrN : mv.row.toNat <
          (applyMoves (Board.new b.size b.winLength) b.moveHistory.dropLast).size := by
        rw [hAsize]
        omega
      have hcN : mv.col.toNat <
          (applyMoves (Board.new b.size b.winLength) b.moveHistory.dropLast).size := by
        rw [hAsize]
        omega
      rw [filledCount_congr
        (v := { applyMoves (Board.new b.size b.winLength) b.moveHistory.dropLast with
          board := setCell
            (applyMoves (Board.new b.size b.winLength) b.moveHistory.dropLast).board
            mv.row.toNat mv.col.toNat (some mv.player) }) hboard]
      exact filledCount_place hAwf hrN hcN g5
    have hAv : filledCount { b with
        board := setCell b.board mv.row.toNat mv.col.toNat none
        moveHistory := b.moveHistory.dropLast } = filledCount
          (applyMoves (Board.new b.size b.winLength) b.moveHistory.dropLast) := by
      apply filledCount_congr
      exact hrestore
    refine ⟨WFBoard_setCell hwf, hsuccL, ?_, ?_⟩
    · show (applyMoves (Board.new b.size b.winLength) b.moveHistory.dropLast).board = _
      rw [← hrestore]
    · show b.moveHistory.dropLast.length = _
      rw [hAv]
      omega


theorem ReachInv_switch {b : Board} (hinv : ReachInv b) : ReachInv (switchPlayer b) := by
  obtain ⟨⟨hw1, hw2⟩, hsucc, hreplay, hcount⟩ := hinv
  exact ⟨⟨hw1, hw2⟩, hsucc, hreplay, hcount⟩

theorem ReachInv_applyOp {b : Board} (hinv : ReachInv b) (op : Op) :
    ReachInv (applyOp b op) := by
  cases op with
  | place r c p => exact ReachInv_place hinv r c p
  | undo => exact ReachInv_undo hinv
  | switch => exact ReachInv_switch hinv

theorem ReachInv_applyOps {b : Board} (hinv : ReachInv b) (ops : List Op) :
    ReachInv (applyOps b ops) := by
  induction ops generalizing b with
  | nil => exact hinv
  | cons op t ih =>
    unfold applyOps
    rw [List.foldl_cons]
    exact ih (ReachInv_applyOp hinv op)

/-! ## Undoing a whole game -/

theorem undoRun_reverses (n w : Nat) :
    ∀ ms : List Move, allSucceed (Board.new n w) ms = true →
      undoRun (applyMoves (Board.new n w) ms) (ms.length + 1) =
        (ms.reverse.map some ++ [none], Board.new n w) := by
  intro ms
  induction ms using List.reverseRecOn with
  | nil => intro _; rfl
  | append_singleton t m ih =>
    intro hsucc
    rw [allSucceed_append, Bool.and_eq_true] at hsucc
    obtain ⟨hT, hM⟩ := hsucc
    rw [applyMoves_append]
    have hlen : (t ++ [m]).length + 1 = (t.length + 1) + 1 := by
      rw [List.length_append, List.length_singleton]
    rw [hlen, undoRun]
    have hundo : undoMove (placeMarker (applyMoves (Board.new n w) t) m.row m.col m.player).2 =
        (some m, applyMoves (Board.new n w) t) := by
      have h := undo_place_int hM
      rw [h]
    rw [hundo]
    rw [ih hT]
    rw [List.reverse_concat, List.map_cons]
    rfl

/-! ## Win detection against the specification predicate -/

theorem checkWin_iff_hasRun {b : Board} {p : Mark}
    (h1 : 1 ≤ b.winLength) (h2 : b.winLength ≤ b.size) :
    checkWin b p = true ↔ hasRun b p := by
  unfold checkWin checkWinHoriz checkWinVert checkWinDiag checkWinAnti hasRun
  simp only [Bool.or_eq_true, List.any_eq_true, List.all_eq_true, List.mem_range,
    decide_eq_true_eq]
  constructor
  · rintro (((⟨r, hr, c, hc, hwin⟩ | ⟨c, hc, r, hr, hwin⟩) | ⟨r, hr, c, hc, hwin⟩) |
      ⟨r, hr, j, hj, hwin⟩)
    · exact Or.inl ⟨r, c, hr, by omega, fun k hk => hwin k hk⟩
    · exact Or.inr (Or.inl ⟨r, c, by omega, hc, fun k hk => hwin k hk⟩)
    · exact Or.inr (Or.inr (Or.inl ⟨r, c, by omega, by omega, fun k hk => hwin k hk⟩))
    · exact Or.inr (Or.inr (Or.inr ⟨r, b.winLength - 1 + j, by omega, by omega, by omega,
        fun k hk => hwin k hk⟩))
  · rintro (⟨r, c, hr, hc, hwin⟩ | ⟨r, c, hr, hc, hwin⟩ | ⟨r, c, hr, hc, hwin⟩ |
      ⟨r, c, hr, hc1, hc2, hwin⟩)
    · exact Or.inl (Or.inl (Or.inl ⟨r, hr, c, by omega, fun k hk => hwin k hk⟩))
    · exact Or.inl (Or.inl (Or.inr ⟨c, hc, r, by omega, fun k hk => hwin k hk⟩))
    · exact Or.inl (Or.inr ⟨r, by omega, c, by omega, fun k hk => hwin k hk⟩)
    · refine Or.inr ⟨r, by omega, c + 1 - b.winLength, by omega, fun k hk => ?_⟩
      have he : b.winLength - 1 + (c + 1 - b.winLength) = c := by omega
      rw [he]
      exact hwin k hk

/-! ## Caller-board framing of the move selectors -/

theorem makeMediumMove_snd (ai : AI) (b : Board) (rng : Nat) :
    (makeMediumMove ai b rng).2 = b := by
  simp only [makeMediumMove]
  cases h1 : tryWinCells ai.marker (getEmptyCells (clone b)) (clone b) with
  | mk o1 bc1 =>
    cases o1 with
    | some c => rfl
    | none =>
      cases h2 : tryWinCells ai.opponentMarker (getEmptyCells (clone b)) bc1 with
      | mk o2 bc2 =>
        cases o2 with
        | some c => simp only [h2]
        | none =>
          simp only [h2]
          split_ifs
          · rfl
          · cases h3 : (corners b).find? fun c => decide (cellAt b c.row c.col = none) with
            | some cr => rfl
            | none => rfl

theorem makeMinimaxMove_snd (ai : AI) (b : Board) (rng : Nat) :
    (makeMinimaxMove ai b rng).2 = b := by
  simp only [makeMinimaxMove]
  split_ifs
  · rfl
  · rfl
  · exact makeMediumMove_snd ai b rng
  · rfl

theorem makeMove_snd (ai : AI) (b : Board) (rng : Nat) : (makeMove ai b rng).2 = b := by
  unfold makeMove
  rcases ai.difficulty with _ | _ | _ | _
  · rfl
  · exact makeMediumMove_snd ai b rng
  · exact makeMinimaxMove_snd ai b rng
  · exact makeMinimaxMove_snd ai b rng

/-! ## Claim theorems -/

/-- C1: `checkWin(player)` returns true iff there is a contiguous run of
`winLength` cells of the player's marker in one of the four directions
(horizontal, vertical, diagonal down-right, anti-diagonal), over all
window start positions inside the grid, given `1 ≤ winLength ≤ size`. -/
theorem claim_C1_checkWin_correct (b : Board) (p : Mark)
    (h1 : 1 ≤ b.winLength) (h2 : b.winLength ≤ b.size) :
    checkWin b p = true ↔ hasRun b p :=
  checkWin_iff_hasRun h1 h2

theorem claim_C1_checkWin_correct_witness :
    1 ≤ (3 : Nat) ∧
    (checkWin (Board.mk 3 3 [[some Mark.O, some Mark.O, some Mark.O],
        [none, none, none], [none, none, none]] [] Mark.O) Mark.O = true ↔
      hasRun (Board.mk 3 3 [[some Mark.O, some Mark.O, some Mark.O],
        [none, none, none], [none, none, none]] [] Mark.O) Mark.O) :=
  ⟨by decide,
   claim_C1_checkWin_correct _ Mark.O (by decide) (by decide)⟩

/-- C2: `placeMarker` fails (returns false with the whole state unchanged)
exactly on out-of-range or occupied targets; otherwise it returns true,
writes exactly the target cell, appends exactly the move record, and
changes nothing else.  It is a total function (never throws).  The grid
shape invariant is assumed. -/
theorem claim_C2_place_spec (b : Board) (row col : Int) (p : Mark) (hwf : WFBoard b) :
    ((¬ (0 ≤ row ∧ row < (b.size : Int) ∧ 0 ≤ col ∧ col < (b.size : Int) ∧
        cellAt b row.toNat col.toNat = none)) →
      placeMarker b row col p = (false, b)) ∧
    ((0 ≤ row ∧ row < (b.size : Int) ∧ 0 ≤ col ∧ col < (b.size : Int) ∧
        cellAt b row.toNat col.toNat = none) →
      (placeMarker b row col p).1 = true ∧
      cellAt (placeMarker b row col p).2 row.toNat col.toNat = some p ∧
      (∀ r c : Nat, ¬ (r = row.toNat ∧ c = col.toNat) →
        cellAt (placeMarker b row col p).2 r c = cellAt b r c) ∧
      (placeMarker b row col p).2.moveHistory = b.moveHistory ++ [⟨row, col, p⟩] ∧
      (placeMarker b row col p).2.currentPlayer = b.currentPlayer ∧
      (placeMarker b row col p).2.size = b.size ∧
      (placeMarker b row col p).2.winLength = b.winLength) := by
  constructor
  · exact placeMarker_fail
  · rintro ⟨h1, h2, h3, h4, h5⟩
    have hs : (placeMarker b row col p).1 = true :=
      placeMarker_succeeds_iff.mpr ⟨h1, h2, h3, h4, h5⟩
    have hrec := placeMarker_success_int hs
    refine ⟨hs, ?_, ?_, ?_, ?_, ?_, ?_⟩
    · rw [hrec]
      exact cellAt_setCell_self hwf (by omega) (by omega)
    · intro r c hne
      rw [hrec]
      exact cellAt_setCell_ne hne
    · rw [hrec]
    · rw [hrec]
    · rw [hrec]
    · rw [hrec]

theorem claim_C2_place_spec_witness :
    (placeMarker (Board.new 3 3) 1 1 Mark.O).1 = true ∧
    cellAt (placeMarker (Board.new 3 3) 1 1 Mark.O).2 1 1 = some Mark.O ∧
    placeMarker (Board.new 3 3) (-1) 0 Mark.O = (false, Board.new 3 3) :=
  ⟨((claim_C2_place_spec (Board.new 3 3) 1 1 Mark.O (by constructor <;> decide)).2
      (by decide)).1,
   ((claim_C2_place_spec (Board.new 3 3) 1 1 Mark.O (by constructor <;> decide)).2
      (by decide)).2.1,
   (claim_C2_place_spec (Board.new 3 3) (-1) 0 Mark.O (by constructor <;> decide)).1
      (by decide)⟩

/-- C3: `undoMove` on an empty history returns null and changes nothing;
after any successful placement it returns exactly that move and restores
the previous state; after `k` successful placements from a fresh board,
`k + 1` undo calls return the `k` moves in reverse chronological order
followed by null, and leave the fresh (all-empty) board. -/
theorem claim_C3_undo_spec :
    (∀ b : Board, b.moveHistory = [] → undoMove b = (none, b)) ∧
    (∀ (b : Board) (row col : Int) (p : Mark), (placeMarker b row col p).1 = true →
      undoMove (placeMarker b row col p).2 = (some ⟨row, col, p⟩, b)) ∧
    (∀ (n w : Nat) (ms : List Move), allSucceed (Board.new n w) ms = true →
      undoRun (applyMoves (Board.new n w) ms) (ms.length + 1) =
        (ms.reverse.map some ++ [none], Board.new n w)) := by
  refine ⟨?_, fun b row col p h => undo_place_int h,
    fun n w ms h => undoRun_reverses n w ms h⟩
  intro b hh
  unfold undoMove
  rw [hh]
  rfl

theorem claim_C3_undo_spec_witness :
    undoMove (Board.new 2 2) = (none, Board.new 2 2) ∧
    undoRun (applyMoves (Board.new 2 2) [⟨0, 0, Mark.O⟩]) 2 =
      ([some ⟨0, 0, Mark.O⟩, none], Board.new 2 2) :=
  ⟨claim_C3_undo_spec.1 (Board.new 2 2) rfl,
   claim_C3_undo_spec.2.2 2 2 [⟨0, 0, Mark.O⟩] (by decide)⟩

/-- C4: the adversarial move selection with alpha-beta pruning returns
exactly the move returned by the identical procedure with the pruning
cutoffs removed, for every board state and AI configuration (deterministic
first-strictly-greater tie-break at the root). -/
theorem claim_C4_pruning_equiv (ai : AI) (b : Board) (rng : Nat) :
    makeMinimaxMove ai b rng = makeMinimaxMoveNP ai b rng := by
  simp only [makeMinimaxMove, makeMinimaxMoveNP, clone_eq]
  split_ifs with h0 h1 hg
  · rfl
  · rfl
  · rfl
  · rw [bestLoop_congr ai.marker
      (fun b2 => minimax ai (ai.maxDepth + 1) b2 0 false ⊥ ⊤)
      (fun b2 => minimaxNP ai (ai.maxDepth + 1) b2 0 false)
      (fun b2 => minimax_snd ai (ai.maxDepth + 1) b2 0 false ⊥ ⊤)
      (fun b2 => minimaxNP_snd ai (ai.maxDepth + 1) b2 0 false)
      (fun b2 => minimax_fullWindow_eq ai (ai.maxDepth + 1) b2 0 false)
      (getEmptyCells b) b (fun c hc => mem_getEmptyCells.mp hc) ⊥ none]

/-- C5: the Heuristic tier follows the strict priority cascade (win, block,
center, first empty corner, random), and on an empty 5-by-5 board with
win length 4 it returns the center cell (2, 2). -/
theorem claim_C5_heuristic_cascade :
    (∀ (ai : AI) (b : Board) (rng : Nat),
      (makeMediumMove ai b rng).1 = heuristicCascadeSpec ai b rng) ∧
    (∀ (m : Mark) (rng : Nat),
      (makeMediumMove (AI.new m Difficulty.medium) (Board.new 5 4) rng).1 =
        some ⟨2, 2⟩) := by
  refine ⟨makeMediumMove_fst_eq_spec, fun m rng => ?_⟩
  rw [makeMediumMove_fst_eq_spec]
  cases m
  · rfl
  · rfl

/-- C6: in every state reachable from a fresh board by place, undo and
switchPlayer operations, the history length equals the number of occupied
cells, and replaying the history from an all-empty board reproduces the
grid exactly. -/
theorem claim_C6_history_invariant (n w : Nat) (ops : List Op) :
    ((applyOps (Board.new n w) ops).moveHistory.length =
      filledCount (applyOps (Board.new n w) ops)) ∧
    ((applyMoves (Board.new (applyOps (Board.new n w) ops).size
        (applyOps (Board.new n w) ops).winLength)
        (applyOps (Board.new n w) ops).moveHistory).board =
      (applyOps (Board.new n w) ops).board) := by
  obtain ⟨_, _, hreplay, hcount⟩ := ReachInv_applyOps (ReachInv_new n w) ops
  exact ⟨hcount, hreplay⟩

/-- C7: `deserialize` applied to the record produced by `serialize` restores
a state identical to the original in all five fields. -/
theorem claim_C7_serialize_roundtrip (b0 b : Board) :
    deserialize b0 (serialize b) = b ∧
    (deserialize b0 (serialize b)).size = b.size ∧
    (deserialize b0 (serialize b)).winLength = b.winLength ∧
    (deserialize b0 (serialize b)).board = b.board ∧
    (deserialize b0 (serialize b)).moveHistory = b.moveHistory ∧
    (deserialize b0 (serialize b)).currentPlayer = b.currentPlayer :=
  ⟨rfl, rfl, rfl, rfl, rfl, rfl⟩

/-- C8: for every tier, `makeMove` returns null exactly on a board with no
empty cell; otherwise the returned move is in bounds on both axes and
names a currently empty cell. -/
theorem claim_C8_makeMove_legal (ai : AI) (b : Board) (rng : Nat) (hsz : 1 ≤ b.size) :
    ((makeMove ai b rng).1 = none ↔ getEmptyCells b = []) ∧
    (∀ m, (makeMove ai b rng).1 = some m →
      m.row < b.size ∧ m.col < b.size ∧ cellAt b m.row m.col = none) := by
  rcases hd : ai.difficulty with _ | _ | _ | _
  · simp only [makeMove, hd]
    exact ⟨makeRandomMove_none_iff b rng,
      fun m hm => mem_getEmptyCells.mp (makeRandomMove_mem b rng hm)⟩
  · simp only [makeMove, hd]
    constructor
    · constructor
      · intro hnone
        by_contra hne
        obtain ⟨m, hm, _⟩ := makeMediumMove_legal ai b rng hsz hne
        rw [hm] at hnone
        exact Option.noConfusion hnone
      · intro hnil
        exact makeMediumMove_none_of_nil ai b rng hsz hnil
    · intro m hm
      by_cases hne : getEmptyCells b = []
      · rw [makeMediumMove_none_of_nil ai b rng hsz hne] at hm
        exact Option.noConfusion hm
      · obtain ⟨m2, hm2, hok⟩ := makeMediumMove_legal ai b rng hsz hne
        rw [hm2] at hm
        cases hm
        exact hok
  · simp only [makeMove, hd]
    exact ⟨(makeMinimaxMove_legal ai b rng hsz).1,
      fun m hm => (makeMinimaxMove_legal ai b rng hsz).2 m hm⟩
  · simp only [makeMove, hd]
    exact ⟨(makeMinimaxMove_legal ai b rng hsz).1,
      fun m hm => (makeMinimaxMove_legal ai b rng hsz).2 m hm⟩

theorem claim_C8_makeMove_legal_witness :
    ((makeMove (AI.new Mark.X Difficulty.easy) (Board.new 2 2) 0).1 = none ↔
      getEmptyCells (Board.new 2 2) = []) :=
  (claim_C8_makeMove_legal (AI.new Mark.X Difficulty.easy) (Board.new 2 2) 0 (by decide)).1

/-- C9: `makeMove` leaves the caller's board completely unchanged at every
tier: in the state-passing embedding the caller's board is returned as
received, every trial mutation runs on the AI's own clone (which itself is
restored by the paired undos inside the search), and the clone is an
independent copy equal in value to the source. -/
theorem claim_C9_makeMove_frame (ai : AI) (b : Board) (rng : Nat) :
    (makeMove ai b rng).2 = b ∧
    (∀ (fuel depth : Nat) (isMax : Bool) (alpha beta : EInt),
      (minimax ai fuel b depth isMax alpha beta).2 = b) ∧
    clone b = b :=
  ⟨makeMove_snd ai b rng,
   fun fuel depth isMax alpha beta => minimax_snd ai fuel b depth isMax alpha beta,
   clone_eq b⟩

/-- C10: at the Adversarial tiers (maxDepth 3 or 4), when more than
`size^2 - 3` cells are empty and more than one cell is empty, `makeMove`
skips minimax and returns exactly the Heuristic-cascade move. -/
theorem claim_C10_early_game_guard (ai : AI) (b : Board) (rng : Nat)
    (hdiff : ai.difficulty = Difficulty.hard ∨ ai.difficulty = Difficulty.master)
    (hmany : b.size * b.size - 3 < (getEmptyCells b).length)
    (hmulti : 1 < (getEmptyCells b).length) :
    makeMove ai b rng = makeMediumMove ai b rng := by
  have hmm : makeMinimaxMove ai b rng = makeMediumMove ai b rng := by
    simp only [makeMinimaxMove, clone_eq]
    rw [if_neg (by omega), if_neg (by omega), if_pos hmany]
  rcases hdiff with h | h
  · simp only [makeMove, h]
    exact hmm
  · simp only [makeMove, h]
    exact hmm

theorem claim_C10_early_game_guard_witness :
    makeMove (AI.new Mark.X Difficulty.hard) (Board.new 3 3) 0 =
      makeMediumMove (AI.new Mark.X Difficulty.hard) (Board.new 3 3) 0 :=
  claim_C10_early_game_guard (AI.new Mark.X Difficulty.hard) (Board.new 3 3) 0
    (Or.inl rfl) (by decide) (by decide)
